import Mathlib

/-!
# Verification of the revai reliability core

A shallow embedding of the MAKER voting core, the calibrator, the
librarian clusterer and the refactoring validator of the revai
repository (`re_agent_project/src`), with theorems settling the frozen
claims about them.

Conventions of the embedding:
* Python floats are modelled as real numbers (`ℝ`) for the k-formula and
  as rationals (`ℚ`) for rewards and success fractions.
* Python dicts are modelled as association lists in insertion order;
  Python sets as duplicate-free lists (iteration order is a model choice,
  which no settled claim depends on).
* A fallible oracle call is an `OracleOutcome`: either the response text
  or a raised exception (`OracleUnavailable` / `OracleTimeout` / ...).
* `json.loads` is abstracted as a parameter `parse : String → Option JVal`
  wherever the code parses oracle output, so every theorem quantifies over
  the behaviour of the JSON parser.
-/

namespace RevAI

/-! ## Sequential voting (`true_maker.py`, `SequentialVoting.do_voting`)

The voting loop consumes oracle samples one at a time.  A sample, after
`_get_vote` has run its guard pipeline, is either rejected (`invalid`) or
accepted with its canonical key-sorted serialization (`valid key`): per the
"serialized vote equality" invariant, two accepted votes count as the same
candidate exactly when their canonical serializations are equal, so the
loop is modelled directly on the canonical key strings.  The oracle is a
function from the sample index to the sample's fate; temperature decay
(index > 20) only changes which oracle produces the sample, which the
indexed stream already accounts for. -/

inductive SampleResult where
  | invalid : SampleResult
  | valid : String → SampleResult
deriving DecidableEq

/-- `vote_counts[key] += 1` on an insertion-ordered association list
(Python `defaultdict(int)`: a fresh key is appended at the end). -/
def tallyIncr : List (String × Nat) → String → List (String × Nat)
  | [], key => [(key, 1)]
  | (k, v) :: rest, key =>
    if k = key then (k, v + 1) :: rest else (k, v) :: tallyIncr rest key

/-- `max(vote_counts.values())`, with 0 for an empty tally. -/
def maxCount (counts : List (String × Nat)) : Nat :=
  counts.foldr (fun kv m => max kv.2 m) 0

/-- `second_max`: the largest count strictly below `m1` (0 if none),
exactly the loop of `do_voting` lines 306-309. -/
def secondMaxCount (counts : List (String × Nat)) (m1 : Nat) : Nat :=
  counts.foldr (fun kv m => if kv.2 < m1 then max kv.2 m else m) 0

/-- `max(vote_counts, key=vote_counts.get)`: the first key (in dict
insertion order) whose count equals the maximum. -/
def firstAtCount (counts : List (String × Nat)) (m1 : Nat) : Option String :=
  (counts.find? (fun kv => kv.2 = m1)).map (·.1)

/-- The `while sample_count < self.max_samples` loop of `do_voting`.
`fuel` is the number of samples the ceiling still allows
(`max_samples − sample_count`), so `fuel = 0` is exactly the loop exit
`sample_count ≥ max_samples`; the returned triple is
`(winner, total_samples, valid_samples)`, the winner being the parsed
form of the winning canonical key, modelled by the key itself. -/
def votingLoop (oracle : Nat → SampleResult) (k : Nat) :
    Nat → List (String × Nat) → Nat → Nat → Option String × Nat × Nat
  | 0, counts, sampleCount, validCount =>
      if counts.isEmpty then (none, sampleCount, validCount)
      else (firstAtCount counts (maxCount counts), sampleCount, validCount)
  | fuel + 1, counts, sampleCount, validCount =>
      match oracle sampleCount with
      | .invalid =>
          votingLoop oracle k fuel counts (sampleCount + 1) validCount
      | .valid voteKey =>
          let counts' := tallyIncr counts voteKey
          let m1 := maxCount counts'
          let m2 := secondMaxCount counts' m1
          if m2 + k ≤ m1 then
            (firstAtCount counts' m1, sampleCount + 1, validCount + 1)
          else
            votingLoop oracle k fuel counts' (sampleCount + 1) (validCount + 1)

/-- `do_voting` with the hard ceiling `self.max_samples = 100`. -/
def doVoting (oracle : Nat → SampleResult) (k : Nat) : Option String × Nat × Nat :=
  votingLoop oracle k 100 [] 0 0

/-- The tally that the loop holds after the first `n` samples have been
consumed (claim-side description, used to state C2). -/
def tallyAfter (oracle : Nat → SampleResult) : Nat → List (String × Nat)
  | 0 => []
  | n + 1 =>
    match oracle n with
    | .invalid => tallyAfter oracle n
    | .valid key => tallyIncr (tallyAfter oracle n) key

/-- Number of guard-accepted samples among the first `n`. -/
def validCountAfter (oracle : Nat → SampleResult) : Nat → Nat
  | 0 => 0
  | n + 1 =>
    match oracle n with
    | .invalid => validCountAfter oracle n
    | .valid _ => validCountAfter oracle n + 1

/-- Whether sample `n` is guard-accepted. -/
def isValidAt (oracle : Nat → SampleResult) (n : Nat) : Bool :=
  match oracle n with
  | .invalid => false
  | .valid _ => true

/-- The claim's margin condition on a tally: `m₁ − m₂ ≥ k` where `m₁` is
the maximum count and `m₂` the maximum count strictly below `m₁`. -/
def marginMet (counts : List (String × Nat)) (k : Nat) : Bool :=
  !counts.isEmpty && secondMaxCount counts (maxCount counts) + k ≤ maxCount counts

/-- Sample `n` is the first one after which the margin-k condition holds. -/
def winsAt (oracle : Nat → SampleResult) (k n : Nat) : Bool :=
  isValidAt oracle n && marginMet (tallyAfter oracle (n + 1)) k &&
    (List.range n).all
      (fun m => !(isValidAt oracle m && marginMet (tallyAfter oracle (m + 1)) k))

/-- Modelled from the spec: "Voting polls a shared cancellation signal
between samples; on cancel returns `(nil, cancelled)`."  The last
component records whether the loop ended through the cancellation path.
This definition follows the spec's words (the source's `do_voting` takes
no cancellation signal at all); it exists to be compared with `doVoting`. -/
def votingLoopCancelSpec (cancel : Nat → Bool) (oracle : Nat → SampleResult)
    (k : Nat) :
    Nat → List (String × Nat) → Nat → Nat → Option String × Nat × Nat × Bool
  | 0, counts, sampleCount, validCount =>
      if counts.isEmpty then (none, sampleCount, validCount, false)
      else (firstAtCount counts (maxCount counts), sampleCount, validCount, false)
  | fuel + 1, counts, sampleCount, validCount =>
      if cancel sampleCount then (none, sampleCount, validCount, true)
      else
        match oracle sampleCount with
        | .invalid =>
            votingLoopCancelSpec cancel oracle k fuel counts
              (sampleCount + 1) validCount
        | .valid voteKey =>
            let counts' := tallyIncr counts voteKey
            let m1 := maxCount counts'
            let m2 := secondMaxCount counts' m1
            if m2 + k ≤ m1 then
              (firstAtCount counts' m1, sampleCount + 1, validCount + 1, false)
            else
              votingLoopCancelSpec cancel oracle k fuel counts'
                (sampleCount + 1) (validCount + 1)

/-- Modelled from the spec: the spec-side voting loop with cancellation
polling, started like `do_voting`. -/
def doVotingCancelSpec (cancel : Nat → Bool) (oracle : Nat → SampleResult)
    (k : Nat) : Option String × Nat × Nat × Bool :=
  votingLoopCancelSpec cancel oracle k 100 [] 0 0

/-! ## Dynamic k selection (`true_maker.py`, `MakerConfig`)

`MakerConfig.__init__` clamps the estimated error rate into
`[0.01, 0.49]` and `_calculate_k_min` evaluates Equation 14 with
`math.log` / `math.pow`, modelled over `ℝ`.  The `raise ValueError`
branch (`VotingInfeasible`) is an `Except.error`; the `try/except`
fallback to 3 has no counterpart in the real-valued model because for the
arguments reachable through the clamp (`p ∈ [0.51, 0.99]`, `t > 0`) none
of `math.pow`, `math.log` or the division can raise. -/

/-- The clamp of `estimated_error_rate` in `MakerConfig.__init__`. -/
noncomputable def clampErrorRate (e : ℝ) : ℝ :=
  if e < 0.01 then 0.01 else if e > 0.49 then 0.49 else e

/-- `MakerConfig._calculate_k_min`, as a function of the (already
clamped) error rate, the target reliability and the step count. -/
noncomputable def calculateKMin (errorRate targetReliability : ℝ)
    (totalSteps : ℤ) : Except String ℤ :=
  let p := 1 - errorRate
  if p ≤ 0.5 then .error "VotingInfeasible"
  else
    let term1 := Real.rpow targetReliability (-1 / (totalSteps : ℝ)) - 1
    if term1 ≤ 0 then .ok 3
    else
      let term2 := (1 - p) / p
      .ok (max 2 ⌈Real.log term1 / Real.log term2⌉)

/-- `MakerConfig.__init__` without a `k_override`: step count floored at
1, error rate clamped, then `_calculate_k_min`. -/
noncomputable def makerConfigK (estimatedErrorRate targetReliability : ℝ)
    (totalSteps : ℤ) : Except String ℤ :=
  calculateKMin (clampErrorRate estimatedErrorRate) targetReliability
    (max 1 totalSteps)

/-- The claim's formula: `k = max 2 ⌈ln(t^(−1/s) − 1) / ln((1−p)/p)⌉`
with `p = 1 − ε` (the ceiling bounded below by 2). -/
noncomputable def kFormulaSpec (epsilon t : ℝ) (s : ℤ) : ℤ :=
  let p := 1 - epsilon
  max 2 ⌈Real.log (Real.rpow t (-1 / (s : ℝ)) - 1) / Real.log ((1 - p) / p)⌉

/-! ## Red-flag guard and `_get_vote` (`true_maker.py`)

JSON values are modelled by `JVal`; `json.loads` is a parameter.
Python-specific behaviours that the guard pipeline relies on are
modelled explicitly: truthiness of a parsed value (`if not parsed_data`),
the `in` operator (which raises `TypeError` on numbers/booleans/null),
and the fact that `.items()` raises `AttributeError` on non-dicts. -/

inductive JVal where
  | null : JVal
  | bool : Bool → JVal
  | num : Int → JVal
  | str : String → JVal
  | arr : List JVal → JVal
  | obj : List (String × JVal) → JVal

/-- Python truthiness of a JSON value (`if not parsed_data`). -/
def JVal.truthy : JVal → Bool
  | .null => false
  | .bool b => b
  | .num n => n ≠ 0
  | .str s => s ≠ ""
  | .arr xs => !xs.isEmpty
  | .obj fs => !fs.isEmpty

/-- Python substring test `needle in hay`. -/
def strContainsSub (hay needle : String) : Bool :=
  hay.toList.tails.any (fun t => needle.toList.isPrefixOf t)

/-- `s.startswith(pre)`. -/
def pyStartsWith (s pre : String) : Bool :=
  pre.toList.isPrefixOf s.toList

/-- `s.endswith(suf)`. -/
def pyEndsWith (s suf : String) : Bool :=
  suf.toList.isSuffixOf s.toList

/-- `s.strip()`: drop whitespace from both ends. -/
def pyTrim (s : String) : String :=
  String.mk
    (((s.toList.dropWhile Char.isWhitespace).reverse.dropWhile
      Char.isWhitespace).reverse)

/-- `s.lower()` (ASCII). -/
def pyToLower (s : String) : String :=
  String.mk (s.toList.map Char.toLower)

/-- One fuelled step list scan for `str.replace`: replace every
non-overlapping occurrence of `pat` (nonempty) by `rep`, left to right.
Each step consumes at least one character, so `fuel = length + 1` never
runs out. -/
def replaceAux (pat rep : List Char) : Nat → List Char → List Char
  | 0, l => l
  | _ + 1, [] => []
  | fuel + 1, c :: rest =>
    if pat ≠ [] ∧ pat.isPrefixOf (c :: rest) then
      rep ++ replaceAux pat rep fuel ((c :: rest).drop pat.length)
    else c :: replaceAux pat rep fuel rest

/-- `s.replace(pat, rep)` for a nonempty `pat`. -/
def pyReplace (s pat rep : String) : String :=
  String.mk (replaceAux pat.toList rep.toList (s.length + 1) s.toList)

/-- Fuelled list scan for `str.split(sep)` with nonempty `sep`:
`cur` is the chunk accumulated so far (reversed). -/
def splitOnAux (sep : List Char) : Nat → List Char → List Char → List String
  | 0, cur, _ => [String.mk cur.reverse]
  | _ + 1, cur, [] => [String.mk cur.reverse]
  | fuel + 1, cur, c :: rest =>
    if sep ≠ [] ∧ sep.isPrefixOf (c :: rest) then
      String.mk cur.reverse ::
        splitOnAux sep fuel [] ((c :: rest).drop sep.length)
    else splitOnAux sep fuel (c :: cur) rest

/-- `s.split(sep)` for a nonempty separator. -/
def pySplitOn (s sep : String) : List String :=
  splitOnAux sep.toList (s.length + 1) [] s.toList

/-- `k in parsed_data` for a string `k`: key membership on dicts, element
equality on lists, substring on strings, `TypeError` otherwise. -/
def JVal.hasMember : JVal → String → Except Unit Bool
  | .obj fields, k => .ok (fields.any (fun f => f.1 = k))
  | .arr elems, k =>
      .ok (elems.any (fun e =>
        match e with
        | .str s => s = k
        | _ => false))
  | .str s, k => .ok (strContainsSub s k)
  | _, _ => .error ()

/-- Auxiliary scan for `wordCount`: count maximal runs of non-whitespace
characters; `inWord` says whether the previous character was inside a
run. -/
def wordCountAux : List Char → Bool → Nat
  | [], _ => 0
  | c :: rest, inWord =>
    if c.isWhitespace then wordCountAux rest false
    else (if inWord then 0 else 1) + wordCountAux rest true

/-- `len(response.split())`: whitespace-separated word count. -/
def wordCount (s : String) : Nat :=
  wordCountAux s.toList false

/-- `RedFlagGuard.check_red_flags`.  `parsed = none` models
`parsed_data is None`; the `Except` layer carries a `TypeError` escaping
from the `required_keys` membership test on a non-container value. -/
def checkRedFlags (maxOutputTokens : Nat) (responseText : String)
    (parsed : Option JVal) (requiredKeys : Option (List String)) :
    Except Unit (Bool × String) :=
  let tokenEstimate := wordCount responseText
  if maxOutputTokens < tokenEstimate then
    .ok (false, s!"response_too_long ({tokenEstimate} tokens > {maxOutputTokens})")
  else
    match parsed with
    | none => .ok (false, "invalid_json_format")
    | some data =>
        let keys := requiredKeys.getD []
        if keys.isEmpty then
          if !data.truthy then .ok (false, "empty_response")
          else .ok (true, "valid")
        else
          match keys.mapM (fun k => (data.hasMember k).map (fun b => (k, b))) with
          | .error e => .error e
          | .ok flags =>
              let missingKeys := (flags.filter (fun kb => !kb.2)).map (fun kb => kb.1)
              if !missingKeys.isEmpty then
                .ok (false, s!"missing_keys: {missingKeys}")
              else if !data.truthy then .ok (false, "empty_response")
              else .ok (true, "valid")

/-- The result of one oracle call: the raw response text, or an exception
raised by `llm.invoke` (`OracleUnavailable`, `OracleTimeout`, ...). -/
inductive OracleOutcome where
  | failure : String → OracleOutcome
  | response : String → OracleOutcome

/-- Metadata attached to a trace record by `_get_vote`. -/
inductive TraceMeta where
  | failureReason : String → TraceMeta
  | parsedData : JVal → TraceMeta

/-- One record appended by `AgentLightningClient.log_transition`. -/
structure TraceRec where
  state : String
  action : String
  reward : ℚ
  nextState : String
  meta : TraceMeta

/-- What `_get_vote` returns, together with the trace records it logged
during the call. -/
structure GetVoteResult where
  vote : List (String × String)
  accepted : Bool
  reason : String
  traces : List TraceRec

/-- The markdown-fence stripping of `_get_vote` (lines 364-373). -/
def stripFences (text : String) : String :=
  let cleaned := pyTrim text
  let cleaned :=
    if pyStartsWith cleaned "```json" then cleaned.drop 7
    else if pyStartsWith cleaned "```" then cleaned.drop 3
    else cleaned
  let cleaned := if pyEndsWith cleaned "```" then cleaned.dropRight 3 else cleaned
  pyTrim cleaned

/-- The failure trace logged at `_get_vote` lines 417-423. -/
def failTrace (prompt responseText reason : String) : TraceRec :=
  ⟨prompt, responseText, -(1/2 : ℚ), "TERMINAL_FAILURE", .failureReason reason⟩

/-- The success trace logged at `_get_vote` lines 430-436. -/
def successTrace (prompt responseText : String) (data : JVal) : TraceRec :=
  ⟨prompt, responseText, 1/10, "VOTING_POOL", .parsedData data⟩

/-- `SequentialVoting._get_vote`: the validation pipeline run on one
oracle outcome.  An exception anywhere inside the `try` block (the oracle
call itself, a `TypeError` from the required-key membership test, or the
`AttributeError` from `.items()` on a valid non-dict value) lands in the
`except` handler, which returns without logging any trace. -/
def getVote (parse : String → Option JVal) (maxOutputTokens : Nat)
    (existingVariables : List String) (requiredKeys : Option (List String))
    (prompt : String) (outcome : OracleOutcome) : GetVoteResult :=
  match outcome with
  | .failure msg => ⟨[], false, s!"exception: {msg}", []⟩
  | .response responseText =>
    let cleaned := stripFences responseText
    match parse cleaned with
    | none =>
        ⟨[], false, "json_parse_error",
          [failTrace prompt responseText "json_parse_error"]⟩
    | some data =>
        match checkRedFlags maxOutputTokens responseText (some data) requiredKeys with
        | .error _ => ⟨[], false, "exception: TypeError", []⟩
        | .ok (flagValid, flagReason) =>
          if !flagValid then
            ⟨[], false, flagReason, [failTrace prompt responseText flagReason]⟩
          else
            match data with
            | .obj fields =>
                match fields.find? (fun f => f.1 ∉ existingVariables) with
                | some f =>
                    let reason := s!"hallucinated_variable: {f.1}"
                    ⟨[], false, reason, [failTrace prompt responseText reason]⟩
                | none =>
                    let cleanRenames := fields.filterMap (fun f =>
                      match f.2 with
                      | .str v => if f.1 ≠ v then some (f.1, v) else none
                      | _ => none)
                    ⟨cleanRenames, true, "valid",
                      [successTrace prompt responseText (.obj fields)]⟩
            | _ => ⟨[], false, "exception: AttributeError", []⟩

/-- Does the guard pipeline of `_get_vote` on response `text` raise
(escaping to the `except` handler, hence logging no trace)?  This happens
exactly when the required-key membership test hits a `TypeError`, or when
a valid value that passed every check is not a dict so that `.items()`
raises `AttributeError`. -/
def getVotePipelineRaises (parse : String → Option JVal) (maxOutputTokens : Nat)
    (requiredKeys : Option (List String)) (text : String) : Bool :=
  match parse (stripFences text) with
  | none => false
  | some data =>
      match checkRedFlags maxOutputTokens text (some data) requiredKeys with
      | .error _ => true
      | .ok (flagValid, _) =>
          flagValid &&
            (match data with
             | .obj _ => false
             | _ => true)

/-! ## Calibrator (`calibration.py`) -/

/-- A calibration sample (`name`, `code`, `variables` of a function). -/
structure CalibSample where
  name : String
  code : String
  vars : List String

/-- `verify_logic_sanity`: parse the raw response, check every key
against the sample's variables.  A parse failure or the
`AttributeError` from `.keys()` on a non-dict value is caught by the
bare `except` and yields `False`. -/
def verifyLogicSanity (parse : String → Option JVal) (responseJson : String)
    (existingVars : List String) : Bool :=
  match parse responseJson with
  | some (.obj fields) => fields.all (fun f => f.1 ∈ existingVars)
  | _ => false

/-- Whether one sample of `measure_model_difficulty` increments
`success_count`.  The source calls
`guard.check_red_flags(response.content, None)` — the parsed data
argument is literally `None` — and then `verify_logic_sanity`; an oracle
exception skips the sample. -/
def calibSampleSuccess (parse : String → Option JVal) (sample : CalibSample)
    (outcome : OracleOutcome) : Bool :=
  match outcome with
  | .failure _ => false
  | .response text =>
      match checkRedFlags 1000 text none none with
      | .error _ => false
      | .ok (flagValid, _) =>
          flagValid && verifyLogicSanity parse text sample.vars

/-- `measure_model_difficulty`: runs the oracle once per sample (the
outcomes are paired with the samples) and returns `(p̂, p̂ > 0.5)`. -/
def measureModelDifficulty (parse : String → Option JVal)
    (samples : List (CalibSample × OracleOutcome)) : ℚ × Bool :=
  let total := samples.length
  let successCount :=
    (samples.filter (fun so => calibSampleSuccess parse so.1 so.2)).length
  let p : ℚ := if total = 0 then 0 else (successCount : ℚ) / (total : ℚ)
  (p, decide ((1 : ℚ) / 2 < p))

/-- Modelled from the spec: "runs the oracle once per sample with
standard parsing and hallucination checks" — a sample succeeds when the
red-flag check on the *parsed* output passes and the hallucination check
against the sample's variables passes.  This is the claim-side success
criterion, to be compared with `calibSampleSuccess`. -/
def calibSampleSuccessSpec (parse : String → Option JVal) (sample : CalibSample)
    (outcome : OracleOutcome) : Bool :=
  match outcome with
  | .failure _ => false
  | .response text =>
      match checkRedFlags 1000 text (parse text) none with
      | .error _ => false
      | .ok (flagValid, _) =>
          flagValid && verifyLogicSanity parse text sample.vars

/-! ## Librarian (`librarian.py`)

Functions are clustered by connected components of the symmetrized call
graph.  Python dicts are association lists in insertion order; Python
sets are duplicate-free lists (the iteration order of a set is
unspecified in Python, so here it is the insertion order — no settled
claim depends on it). -/

structure FunctionUnit where
  address : String
  name : String
  code : String
  vars : List String
  varTypes : List (String × String)
  calls : List (Option String)
  paramCount : Int
  returnType : String
deriving DecidableEq

structure ModuleGroup where
  moduleName : String
  functions : List FunctionUnit
  sharedTypes : List String
deriving DecidableEq

/-- `d[k] = v` on a Python dict modelled as an association list: an
existing key keeps its position, a fresh key is appended. -/
def dictUpsert (d : List (String × String)) (k v : String) :
    List (String × String) :=
  if d.any (fun kv => kv.1 = k) then
    d.map (fun kv => if kv.1 = k then (k, v) else kv)
  else d ++ [(k, v)]

/-- `addr_to_name = {f["address"]: f["name"] for f in functions}`. -/
def addrToName (functions : List FunctionUnit) : List (String × String) :=
  functions.foldl (fun d f => dictUpsert d f.address f.name) []

/-- `graph[k].add(v)` on a `defaultdict(set)` modelled as an association
list of duplicate-free lists. -/
def adjInsert (g : List (String × List String)) (k v : String) :
    List (String × List String) :=
  if g.any (fun kv => kv.1 = k) then
    g.map (fun kv =>
      if kv.1 = k then (k, if v ∈ kv.2 then kv.2 else kv.2 ++ [v]) else kv)
  else g ++ [(k, [v])]

/-- `addr_to_name.values()`. -/
def exportedNames (functions : List FunctionUnit) : List String :=
  (addrToName functions).map (fun kv => kv.2)

/-- `Librarian.build_call_graph`: for each call whose target name is
truthy and appears among the exported function names, add the edge in
both directions. -/
def buildCallGraph (functions : List FunctionUnit) :
    List (String × List String) :=
  functions.foldl (fun g f =>
    f.calls.foldl (fun g c =>
      match c with
      | some calledName =>
          if calledName ≠ "" ∧ calledName ∈ exportedNames functions then
            adjInsert (adjInsert g f.name calledName) calledName f.name
          else g
      | none => g) g) []

/-- `call_graph.get(current_func, [])`. -/
def graphGet (g : List (String × List String)) (k : String) : List String :=
  ((g.find? (fun kv => kv.1 = k)).map (fun kv => kv.2)).getD []

/-- The iterative DFS of `Librarian.cluster_functions` (lines 59-75):
pop, skip visited, stop growing at the hard cap, otherwise mark visited,
add to the cluster and push the unvisited neighbours.  The Python stack
pushes/pops at the list end; here the head of `stack` is the top, so the
neighbour list is pushed reversed.  The loop always terminates because
every iteration pops one entry and entries are pushed only when a node
is freshly visited (at most once per node), so the iteration count is at
most `1 +` the total adjacency size; `dfsFuel` below is that bound and
the fuel can therefore never run out. -/
def dfsLoop (graph : List (String × List String)) (hardLimit : Nat) :
    Nat → List String → List String → List String → List String × List String
  | 0, _, visited, cluster => (visited, cluster)
  | _ + 1, [], visited, cluster => (visited, cluster)
  | fuel + 1, current :: rest, visited, cluster =>
    if current ∈ visited then dfsLoop graph hardLimit fuel rest visited cluster
    else if hardLimit ≤ cluster.length then (visited, cluster)
    else
      let visited' := current :: visited
      let cluster' := cluster ++ [current]
      let pushes := (graphGet graph current).filter (fun x => x ∉ visited')
      dfsLoop graph hardLimit fuel (pushes.reverse ++ rest) visited' cluster'

/-- Sufficient fuel for `dfsLoop` started on a one-element stack. -/
def dfsFuel (graph : List (String × List String)) : Nat :=
  1 + (graph.map (fun kv => kv.2.length)).sum

/-- The keyword-to-module-name table of `_generate_module_name`. -/
def moduleKeywords : List (String × String) :=
  [("auth", "authentication"), ("net", "network"), ("file", "filesystem"),
   ("crypto", "cryptography"), ("init", "initialization"),
   ("parse", "parser"), ("verify", "verification"),
   ("process", "processor"), ("handle", "handler")]

/-- Longest common prefix of two character lists (`_find_common_prefix`
chops the candidate from the right until it is a prefix, which computes
exactly this). -/
def lcpChars : List Char → List Char → List Char
  | a :: as, b :: bs => if a = b then a :: lcpChars as bs else []
  | _, _ => []

/-- `Librarian._find_common_prefix`. -/
def findCommonPref (strings : List String) : String :=
  match strings with
  | [] => ""
  | s :: rest =>
      rest.foldl (fun pre t => String.mk (lcpChars pre.toList t.toList)) s

/-- Python `str.rstrip('_')`. -/
def rstripUnderscore (s : String) : String :=
  String.mk (s.toList.reverse.dropWhile (fun c => c = '_')).reverse

/-- `Librarian._generate_module_name`. -/
def generateModuleName (functions : List FunctionUnit) : String :=
  let names := functions.map (fun f => f.name)
  match moduleKeywords.find?
      (fun kw => names.any (fun nm => strContainsSub (pyToLower nm) kw.1)) with
  | some kw => kw.2
  | none =>
    match names with
    | [] => "unknown"
    | n0 :: _ =>
        let pre := findCommonPref names
        if 3 < pre.length then rstripUnderscore (pyToLower pre)
        else pyReplace (pyToLower n0) "fun_" "module_" 

/-- The frozen primitive-type set of `_extract_shared_types`. -/
def primitiveTypes : List String :=
  ["int", "char", "void", "long", "short", "float", "double", "byte",
   "bool", "boolean", "size_t", "ssize_t",
   "uint8_t", "int8_t", "uint16_t", "int16_t",
   "uint32_t", "int32_t", "uint64_t", "int64_t",
   "unsigned int", "unsigned long", "unsigned char", "unsigned short",
   "signed int", "signed long", "signed char", "signed short",
   "long long", "unsigned long long",
   "wchar_t", "char16_t", "char32_t",
   "__int8", "__int16", "__int32", "__int64",
   "undefined", "undefined1", "undefined2", "undefined4", "undefined8"]

/-- `Librarian._extract_shared_types`: count occurrences of each
non-primitive declared type and keep those counted at least twice. -/
def extractSharedTypes (functions : List FunctionUnit) : List String :=
  let typeUsage := functions.foldl (fun d f =>
    f.varTypes.foldl (fun d kv =>
      if kv.2 ∈ primitiveTypes then d else tallyIncr d kv.2) d) []
  (typeUsage.filter (fun kv => 2 ≤ kv.2)).map (fun kv => kv.1)

/-- `func_map[name]` where `func_map = {f["name"]: f for f in functions}`
(a later duplicate name overwrites an earlier one). -/
def funcLookup (functions : List FunctionUnit) (nm : String) :
    Option FunctionUnit :=
  functions.reverse.find? (fun f => f.name = nm)

/-- `[func_map[name] for name in cluster if name in func_map]`. -/
def clusterOf (functions : List FunctionUnit) (cluster : List String) :
    List FunctionUnit :=
  cluster.filterMap (funcLookup functions)

/-- Build the `ModuleGroup` for one clustered component. -/
def mkClusterModule (functions : List FunctionUnit) (cluster : List String) :
    ModuleGroup :=
  let moduleFunctions := clusterOf functions cluster
  ⟨generateModuleName moduleFunctions, moduleFunctions,
    extractSharedTypes moduleFunctions⟩

/-- The first phase of `cluster_functions`: the `for func in functions`
loop that grows components by DFS and keeps those of size
`≥ min_module_size`.  Returns the final visited set and the modules, in
order. -/
def clusteredPass (functions : List FunctionUnit) (minSize hardLimit : Nat)
    (graph : List (String × List String)) : List String × List ModuleGroup :=
  functions.foldl (fun acc f =>
    if f.name ∈ acc.1 then acc
    else
      let r := dfsLoop graph hardLimit (dfsFuel graph) [f.name] acc.1 []
      if minSize ≤ r.2.length then (r.1, acc.2 ++ [mkClusterModule functions r.2])
      else (r.1, acc.2)) ([], [])

/-- The clustered (non-utilities) modules of `cluster_functions`, with
`hard_limit = int(self.max_module_size * 1.5)` (truncation). -/
def clusteredModules (minSize maxSize : Nat) (functions : List FunctionUnit) :
    List ModuleGroup :=
  (clusteredPass functions minSize (3 * maxSize / 2) (buildCallGraph functions)).2

/-- Fuelled body of `chunkList`: every step consumes at least one
element when `sz ≥ 1`, so `fuel = length` never runs out. -/
def chunkGo {α : Type} (sz : Nat) : Nat → List α → List (List α)
  | _, [] => []
  | 0, _ :: _ => []
  | fuel + 1, a :: t =>
      if sz = 0 then []
      else (a :: t).take sz :: chunkGo sz fuel ((a :: t).drop sz)

/-- `orphans[i:i + chunk_size]` slicing loop.  (With `chunk_size = 0` the
Python `range` raises; the model returns no chunks, and the theorems
assume `max_module_size ≥ 1`.) -/
def chunkList {α : Type} (sz : Nat) (l : List α) : List (List α) :=
  chunkGo sz l.length l

/-- The synthetic `utilities_1, utilities_2, …` modules built from the
orphans. -/
def utilityModules (maxSize : Nat) (orphans : List FunctionUnit) :
    List ModuleGroup :=
  (chunkList maxSize orphans).mapIdx
    (fun i chunk => ⟨s!"utilities_{i + 1}", chunk, []⟩)

/-- `Librarian.cluster_functions`: clustered modules followed by the
utilities modules holding every function not grouped in phase one. -/
def clusterFunctions (minSize maxSize : Nat) (functions : List FunctionUnit) :
    List ModuleGroup :=
  let mods := clusteredModules minSize maxSize functions
  let grouped := mods.flatMap (fun m => m.functions.map (fun f => f.name))
  let orphans := functions.filter (fun f => f.name ∉ grouped)
  mods ++ utilityModules maxSize orphans

/-! ## Refactoring validation and emission (`refactory_agents.py`) -/

structure RefactoringProposal where
  functionName : String
  originalCode : String
  refactoredCode : String
  transformations : List String
  proposalValid : Bool
deriving DecidableEq

def openBrace : Char := '\x7b'

def closeBrace : Char := '\x7d'

/-- Python `s.count(c)` for a single character. -/
def countChar (c : Char) (s : String) : Nat :=
  (s.toList.filter (fun x => x = c)).length

/-- The paired-brace garbage check of `refactoring_validator`. -/
def braceBalanced (p : RefactoringProposal) : Bool :=
  countChar openBrace p.refactoredCode = countChar closeBrace p.refactoredCode

/-- `refactoring_validator`: keep exactly the proposals whose refactored
code has equally many `{` and `}` (rejected ones are only printed). -/
def refactoringValidator (proposals : List RefactoringProposal) :
    List RefactoringProposal :=
  proposals.filter braceBalanced

/-- Python `str.title()` restricted to ASCII letters: uppercase a letter
that follows a non-letter, lowercase one that follows a letter. -/
def titleAux : List Char → Bool → List Char
  | [], _ => []
  | c :: rest, prevCased =>
    if c.isAlpha then
      (if prevCased then c.toLower else c.toUpper) :: titleAux rest true
    else c :: titleAux rest false

def pyTitle (s : String) : String := String.mk (titleAux s.toList false)

/-- `"".join(x.title() for x in module_name.replace("-", "_").split("_"))`. -/
def classNameOf (moduleName : String) : String :=
  String.join ((pySplitOn (pyReplace moduleName "-" "_") "_").map pyTitle)

/-- `"\n".join("        " + line for line in code.split("\n"))`. -/
def indentCode (code : String) : String :=
  String.intercalate "\n" ((pySplitOn code "\n").map (fun line => "        " ++ line))

/-- The commented struct-definition block of `source_code_generator`. -/
def structDefsBlock (structDefs : List String) : String :=
  if structDefs.isEmpty then ""
  else
    "        // Discovered Structs (Original C definitions)\n" ++
      String.join (structDefs.map (fun d => "        /*\n" ++ d ++ "\n        */\n\n"))

/-- The per-function block of `source_code_generator` (only confirmed
refactorings reach it). -/
def refactoringBlock (r : RefactoringProposal) : String :=
  "        // Original: " ++ r.functionName ++ "\n" ++
    indentCode r.refactoredCode ++ "\n\n"

/-- `source_code_generator`: the content of the emitted `.cs` file for a
module, given the collected struct definitions and the confirmed
refactorings. -/
def generatedSource (moduleName : String) (structDefs : List String)
    (refactorings : List RefactoringProposal) : String :=
  let className := classNameOf moduleName
  "// " ++ className ++ ".cs\n" ++
  "// Auto-generated by Refactory Pipeline\n\n" ++
  "using System;\n" ++
  "using System.Collections.Generic;\n" ++
  "using System.Runtime.InteropServices;\n" ++
  "using System.Text;\n\n" ++
  "namespace RefactoredApp\n\x7b\n" ++
  "    public static class " ++ className ++ "\n    \x7b\n" ++
  structDefsBlock structDefs ++
  String.join (refactorings.map refactoringBlock) ++
  "    \x7d\n\x7d\n"

/-! ## Identifier-safe substitution (`refactory_agents.py`, `_safe_replace`)

`_safe_replace(code, target, replacement)` (no `context_next`) compiles
the regex `(block|line|string|char)|(?P<MATCH>\b target \b)` and
substitutes left to right.  The scanner below reproduces the regex
engine's behaviour on this pattern: at every position the four skip
alternatives are tried in order, then the word-bounded target; on no
match the character is copied and the scan advances.  `\b` is decided
from the word-character status of the neighbouring *input* characters
(ASCII `\w`).  The scanner also counts the substitutions it makes. -/

def isWordChar (c : Char) : Bool := c.isAlphanum || c = '_'

/-- Consume up to and including the first `*/` (the non-greedy
`[\s\S]*?\*/`); `none` when the comment is unterminated. -/
def findBlockEnd : List Char → Option (List Char × List Char)
  | [] => none
  | c :: rest =>
      if c = '*' ∧ rest.head? = some '/' then some (['*', '/'], rest.tail)
      else (findBlockEnd rest).map (fun p => (c :: p.1, p.2))

/-- Body of a quoted literal after the opening quote `q`:
`(?:\\.|[^q\\])*q` where `.` does not match a newline. -/
def matchQuotedBody (q : Char) : List Char → Option (List Char × List Char)
  | [] => none
  | c :: rest =>
    if c = q then some ([q], rest)
    else if c = '\\' then
      match rest with
      | [] => none
      | d :: rest2 =>
          if d = '\n' then none
          else (matchQuotedBody q rest2).map (fun p => (c :: d :: p.1, p.2))
    else (matchQuotedBody q rest).map (fun p => (c :: p.1, p.2))

def tryBlockComment : List Char → Option (List Char × List Char)
  | c :: d :: rest =>
      if c = '/' ∧ d = '*' then
        (findBlockEnd rest).map (fun p => ('/' :: '*' :: p.1, p.2))
      else none
  | _ => none

def tryLineComment : List Char → Option (List Char × List Char)
  | c :: d :: rest =>
      if c = '/' ∧ d = '/' then
        some ('/' :: '/' :: rest.takeWhile (fun x => x ≠ '\n'),
              rest.dropWhile (fun x => x ≠ '\n'))
      else none
  | _ => none

def tryQuoted (q : Char) : List Char → Option (List Char × List Char)
  | c :: rest =>
      if c = q then (matchQuotedBody q rest).map (fun p => (q :: p.1, p.2))
      else none
  | [] => none

/-- The `pat_skip` alternation, in the order of the source pattern. -/
def trySkip (code : List Char) : Option (List Char × List Char) :=
  match tryBlockComment code with
  | some p => some p
  | none =>
    match tryLineComment code with
    | some p => some p
    | none =>
      match tryQuoted '"' code with
      | some p => some p
      | none => tryQuoted '\'' code

/-- The two `\b` conditions around the target at the current position:
word-ness must change at the left edge (`prevW` vs the target's first
character) and at the right edge (the target's last character vs the
next input character, with string edges counting as non-word).  An empty
target never matches in the model (the source never calls
`_safe_replace` with one). -/
def boundaryOk (prevW : Bool) (o : List Char) (rest : List Char) : Bool :=
  match o with
  | [] => false
  | c :: _ =>
      let firstW := isWordChar c
      let lastW := isWordChar (o.getLastD c)
      let nextW := match rest with
        | [] => false
        | r :: _ => isWordChar r
      (prevW ≠ firstW) && (lastW ≠ nextW)

/-- `\b target \b` at the current position; returns the rest of the
input on success. -/
def tryTarget (o : List Char) (prevW : Bool) (code : List Char) :
    Option (List Char) :=
  if o.isPrefixOf code then
    let rest := code.drop o.length
    if boundaryOk prevW o rest then some rest else none
  else none

/-- The substitution scan of `_safe_replace`: returns the rewritten text
and the number of target matches replaced.  One unit of fuel is spent
per step and every step consumes at least one input character, so
`fuel = length + 1` never runs out. -/
def subScan (o n : List Char) : Nat → Bool → List Char → List Char × Nat
  | 0, _, code => (code, 0)
  | _ + 1, _, [] => ([], 0)
  | fuel + 1, prevW, c :: rest =>
    match trySkip (c :: rest) with
    | some (chunk, after) =>
        let r := subScan o n fuel (isWordChar (chunk.getLastD c)) after
        (chunk ++ r.1, r.2)
    | none =>
        match tryTarget o prevW (c :: rest) with
        | some after =>
            let r := subScan o n fuel (isWordChar (o.getLastD c)) after
            (n ++ r.1, r.2 + 1)
        | none =>
            let r := subScan o n fuel (isWordChar c) rest
            (c :: r.1, r.2)

/-- `_safe_replace(code, target, replacement)` together with the number
of replacements made. -/
def safeReplaceCount (code target replacement : String) : String × Nat :=
  let r := subScan target.toList replacement.toList
    (code.length + 1) false code.toList
  (String.mk r.1, r.2)

/-- `_safe_replace(code, target, replacement)` (simple rename form). -/
def safeReplace (code target replacement : String) : String :=
  (safeReplaceCount code target replacement).1

/-- Number of free (word-bounded, outside literals and comments)
occurrences of `target` that a substitution pass would replace. -/
def freeMatchCount (code target : String) : Nat :=
  (safeReplaceCount code target target).2

/-- The `for old_name, new_name in confirmed_renames.items()` loop of
`refactoring_agent`: apply the identifier-safe substitution once per
rename pair, in insertion order. -/
def applyRenames (renames : List (String × String)) (code : String) : String :=
  renames.foldl (fun c r => safeReplace c r.1 r.2) code

/-! ## Worker control skeleton (`refactory_pipeline.py`, `process_module`)

`process_module` checks the shared `stop_event` at five points: on entry
(line 147), after the inspector and state initialisation (line 188,
before Stage 1), before Stage 2 (line 198), before Stage 3 (line 208)
and before Stage 4 (line 218).  No check happens inside a stage; in
particular `do_voting` never sees the signal.  The stage bodies are
abstracted by the number of oracle calls each would issue
(`stageCalls 1..3`; the inspector and Stage 4 issue none).  The result
is `(module completed?, oracle calls issued)`. -/

def processModuleFlow (stop : Nat → Bool) (stageCalls : Nat → Nat) :
    Bool × Nat :=
  if stop 0 then (false, 0)
  else if stop 1 then (false, 0)
  else
    let c1 := stageCalls 1
    if stop 2 then (false, c1)
    else
      let c2 := c1 + stageCalls 2
      if stop 3 then (false, c2)
      else
        let c3 := c2 + stageCalls 3
        if stop 4 then (false, c3)
        else (true, c3)

/-! ## Theorems -/

/-! ### Dynamic k selection (C1, C9) -/

lemma clampErrorRate_mem (e : ℝ) :
    0.01 ≤ clampErrorRate e ∧ clampErrorRate e ≤ 0.49 := by
  unfold clampErrorRate
  split_ifs <;> constructor <;> linarith

lemma calculateKMin_eq_formula (epsilon t : ℝ) (s : ℤ)
    (h1 : 0.01 ≤ epsilon) (h2 : epsilon ≤ 0.49)
    (ht0 : 0 < t) (ht1 : t < 1) (hs : 1 ≤ s) :
    calculateKMin epsilon t s = .ok (kFormulaSpec epsilon t s) := by
  have hp : ¬ (1 - epsilon ≤ 0.5) := by
    simp only [not_le]; linarith
  have hs0 : (0 : ℝ) < (s : ℝ) := by exact_mod_cast hs.trans_lt' (by norm_num)
  have hexp : -1 / (s : ℝ) < 0 := div_neg_of_neg_of_pos (by norm_num) hs0
  have heq : Real.rpow t (-1 / (s : ℝ)) = t ^ (-1 / (s : ℝ)) := rfl
  have hgt : (1 : ℝ) < t ^ (-1 / (s : ℝ)) :=
    (Real.one_lt_rpow_iff_of_pos ht0).mpr (Or.inr ⟨ht1, hexp⟩)
  have hterm : ¬ (Real.rpow t (-1 / (s : ℝ)) - 1 ≤ 0) := by
    rw [heq]; simp only [not_le]; linarith
  unfold calculateKMin kFormulaSpec
  simp only [hp, hterm, if_false, if_neg]

lemma kFormulaSpec_ge_two (epsilon t : ℝ) (s : ℤ) :
    2 ≤ kFormulaSpec epsilon t s :=
  le_max_left _ _

lemma calculateKMin_ok (epsilon t : ℝ) (s : ℤ)
    (h1 : 0.01 ≤ epsilon) (h2 : epsilon ≤ 0.49) :
    ∃ k, calculateKMin epsilon t s = .ok k ∧ 2 ≤ k := by
  have hp : ¬ (1 - epsilon ≤ 0.5) := by
    simp only [not_le]; linarith
  unfold calculateKMin
  simp only [hp, if_false, if_neg]
  by_cases hterm : Real.rpow t (-1 / (s : ℝ)) - 1 ≤ 0
  · exact ⟨3, by rw [if_pos hterm], by norm_num⟩
  · exact ⟨_, by rw [if_neg hterm], le_max_left _ _⟩

/-- Claim C1: for every target reliability `t ∈ (0,1)`, step count
`s ≥ 1` and clamped error rate `ε ∈ [0.01, 0.49]`, `_calculate_k_min`
returns exactly `⌈ln(t^(−1/s) − 1) / ln((1−p)/p)⌉` with `p = 1 − ε`,
bounded below by 2; in particular it is a finite integer `≥ 2`. -/
theorem maker_k_formula (epsilon t : ℝ) (s : ℤ)
    (h1 : 0.01 ≤ epsilon) (h2 : epsilon ≤ 0.49)
    (ht0 : 0 < t) (ht1 : t < 1) (hs : 1 ≤ s) :
    calculateKMin epsilon t s = .ok (kFormulaSpec epsilon t s) ∧
      2 ≤ kFormulaSpec epsilon t s :=
  ⟨calculateKMin_eq_formula epsilon t s h1 h2 ht0 ht1 hs,
   kFormulaSpec_ge_two epsilon t s⟩

/-- Witness for C1 at the boundary instance `ε = 0.49`, `t = 0.95`,
`s = 1` (spec item B1): `k` is a finite integer `≥ 2`. -/
theorem maker_k_formula_witness :
    calculateKMin 0.49 0.95 1 = .ok (kFormulaSpec 0.49 0.95 1) ∧
      2 ≤ kFormulaSpec 0.49 0.95 1 :=
  maker_k_formula 0.49 0.95 1 (by norm_num) (by norm_num) (by norm_num)
    (by norm_num) (by norm_num)

/-- Claim C9: `MakerConfig` construction without an override is total in
the raw `estimated_error_rate`: the clamp lands in `[0.01, 0.49]`, the
success rate `p = 1 − ε` lands in `[0.51, 0.99]` (so the
`VotingInfeasible` branch is unreachable) and a `k ≥ 2` is always
produced without raising. -/
theorem maker_config_total (e t : ℝ) (s : ℤ) (ht0 : 0 < t) (ht1 : t < 1) :
    (0.01 ≤ clampErrorRate e ∧ clampErrorRate e ≤ 0.49) ∧
    (0.51 ≤ 1 - clampErrorRate e ∧ 1 - clampErrorRate e ≤ 0.99) ∧
    ∃ k, makerConfigK e t s = .ok k ∧ 2 ≤ k := by
  obtain ⟨hc1, hc2⟩ := clampErrorRate_mem e
  refine ⟨⟨hc1, hc2⟩, ⟨by linarith, by linarith⟩, ?_⟩
  unfold makerConfigK
  exact calculateKMin_ok _ t _ hc1 hc2

/-- Witness for C9 at a wild raw error rate (`ε = 7`). -/
theorem maker_config_total_witness :
    (0.01 ≤ clampErrorRate 7 ∧ clampErrorRate 7 ≤ 0.49) ∧
    (0.51 ≤ 1 - clampErrorRate 7 ∧ 1 - clampErrorRate 7 ≤ 0.99) ∧
    ∃ k, makerConfigK 7 0.95 1 = .ok k ∧ 2 ≤ k :=
  maker_config_total 7 0.95 1 (by norm_num) (by norm_num)

/-! ### Calibrator (C6) -/

lemma checkRedFlags_none_fails (maxTok : Nat) (text : String)
    (keys : Option (List String)) :
    ∃ r, checkRedFlags maxTok text none keys = .ok (false, r) := by
  simp only [checkRedFlags]
  split
  · exact ⟨_, rfl⟩
  · exact ⟨_, rfl⟩

lemma calibSampleSuccess_false (parse : String → Option JVal)
    (sample : CalibSample) (outcome : OracleOutcome) :
    calibSampleSuccess parse sample outcome = false := by
  cases outcome with
  | failure m => rfl
  | response text =>
      obtain ⟨r, hr⟩ := checkRedFlags_none_fails 1000 text none
      simp [calibSampleSuccess, hr]

/-- Claim C6 (code bug): because `measure_model_difficulty` passes
`None` as the parsed data to `check_red_flags`, no sample is ever
counted as a success, so the calibrator always returns `(0, infeasible)`
— even on a sample/response pair that satisfies the claim's success
criterion (valid JSON whose keys all lie in the sample's variables),
as the second conjunct shows at a concrete failing input. -/
theorem calibration_always_zero :
    (∀ (parse : String → Option JVal)
       (samples : List (CalibSample × OracleOutcome)),
       measureModelDifficulty parse samples = (0, false)) ∧
    calibSampleSuccessSpec
      (fun s => if s = "\x7b\"iVar1\": \"width\"\x7d"
        then some (.obj [("iVar1", JVal.str "width")]) else none)
      ⟨"calc", "int f()", ["iVar1"]⟩
      (.response "\x7b\"iVar1\": \"width\"\x7d") = true := by
  constructor
  · intro parse samples
    unfold measureModelDifficulty
    have hfilter :
        samples.filter (fun so => calibSampleSuccess parse so.1 so.2) = [] :=
      List.filter_eq_nil_iff.mpr (fun so _ => by
        simp [calibSampleSuccess_false])
    rw [hfilter]
    simp only [List.length_nil, Nat.cast_zero, zero_div]
    split
    · norm_num
    · norm_num
  · decide

/-! ### Reward attribution in `_get_vote` (C3) -/

/-- Counterexample to C3: an oracle failure (`OracleUnavailable` /
`OracleTimeout`) raised during a sample lands in the `except` handler of
`_get_vote`, which returns without calling `log_transition` — the
invocation produces **no** Trace record, not one with reward −0.5. -/
theorem get_vote_failure_logs_no_trace :
    (getVote (fun _ => none) 1000 [] none "prompt"
      (.failure "OracleTimeout")).traces = [] := rfl

/-- Claim C3 as amended: every oracle invocation that yields a response
and whose guard pipeline completes without raising produces exactly one
Trace record — reward +0.1 (next state `VOTING_POOL`) when the sample is
guard-accepted, reward −0.5 (next state `TERMINAL_FAILURE`, with the
rejection reason in the metadata) when it is guard-rejected.  An
invocation that raises (oracle failure, or a pipeline exception) logs no
trace; the voting loop still counts it as one rejected sample and
continues. -/
theorem get_vote_one_trace (parse : String → Option JVal) (maxTok : Nat)
    (vars : List String) (keys : Option (List String)) (prompt text : String)
    (hno : getVotePipelineRaises parse maxTok keys text = false) :
    ∃ tr, (getVote parse maxTok vars keys prompt (.response text)).traces = [tr] ∧
      tr.state = prompt ∧ tr.action = text ∧
      (((getVote parse maxTok vars keys prompt (.response text)).accepted = true ∧
          tr.reward = 1/10 ∧ tr.nextState = "VOTING_POOL") ∨
       ((getVote parse maxTok vars keys prompt (.response text)).accepted = false ∧
          tr.reward = -(1/2) ∧ tr.nextState = "TERMINAL_FAILURE" ∧
          tr.meta = .failureReason
            (getVote parse maxTok vars keys prompt (.response text)).reason)) := by
  cases hparse : parse (stripFences text) with
  | none =>
      have hres : getVote parse maxTok vars keys prompt (.response text) =
          ⟨[], false, "json_parse_error",
            [failTrace prompt text "json_parse_error"]⟩ := by
        simp [getVote, hparse]
      rw [hres]
      exact ⟨failTrace prompt text "json_parse_error", rfl, rfl, rfl,
        Or.inr ⟨rfl, rfl, rfl, rfl⟩⟩
  | some data =>
      cases hflag : checkRedFlags maxTok text (some data) keys with
      | error e =>
          exfalso
          simp [getVotePipelineRaises, hparse, hflag] at hno
      | ok vr =>
          obtain ⟨flagValid, flagReason⟩ := vr
          cases hv : flagValid with
          | false =>
              have hres : getVote parse maxTok vars keys prompt (.response text) =
                  ⟨[], false, flagReason,
                    [failTrace prompt text flagReason]⟩ := by
                simp [getVote, hparse, hflag, hv]
              rw [hres]
              exact ⟨failTrace prompt text flagReason, rfl, rfl, rfl,
                Or.inr ⟨rfl, rfl, rfl, rfl⟩⟩
          | true =>
              cases data with
              | obj fields =>
                  cases hfind : fields.find? (fun f => !decide (f.1 ∈ vars)) with
                  | some f =>
                      have hres :
                          getVote parse maxTok vars keys prompt (.response text) =
                          ⟨[], false, s!"hallucinated_variable: {f.1}",
                            [failTrace prompt text
                              s!"hallucinated_variable: {f.1}"]⟩ := by
                        simp [getVote, hparse, hflag, hv, hfind]
                      rw [hres]
                      exact ⟨failTrace prompt text s!"hallucinated_variable: {f.1}",
                        rfl, rfl, rfl, Or.inr ⟨rfl, rfl, rfl, rfl⟩⟩
                  | none =>
                      have hres :
                          getVote parse maxTok vars keys prompt (.response text) =
                          ⟨fields.filterMap (fun f =>
                              match f.2 with
                              | .str v => if f.1 ≠ v then some (f.1, v) else none
                              | _ => none), true, "valid",
                            [successTrace prompt text (.obj fields)]⟩ := by
                        simp [getVote, hparse, hflag, hv, hfind]
                      rw [hres]
                      exact ⟨successTrace prompt text (.obj fields), rfl, rfl, rfl,
                        Or.inl ⟨rfl, rfl, rfl⟩⟩
              | null => exfalso; simp [getVotePipelineRaises, hparse, hflag, hv] at hno
              | bool b => exfalso; simp [getVotePipelineRaises, hparse, hflag, hv] at hno
              | num n => exfalso; simp [getVotePipelineRaises, hparse, hflag, hv] at hno
              | str s => exfalso; simp [getVotePipelineRaises, hparse, hflag, hv] at hno
              | arr xs => exfalso; simp [getVotePipelineRaises, hparse, hflag, hv] at hno

/-- Witness for the amended C3 at a concrete rejected sample (a
non-JSON response): exactly one trace, reward −0.5. -/
theorem get_vote_one_trace_witness :
    ∃ tr, (getVote (fun _ => none) 1000 [] none "p" (.response "Not JSON")).traces = [tr] ∧
      tr.state = "p" ∧ tr.action = "Not JSON" ∧
      (((getVote (fun _ => none) 1000 [] none "p" (.response "Not JSON")).accepted = true ∧
          tr.reward = 1/10 ∧ tr.nextState = "VOTING_POOL") ∨
       ((getVote (fun _ => none) 1000 [] none "p" (.response "Not JSON")).accepted = false ∧
          tr.reward = -(1/2) ∧ tr.nextState = "TERMINAL_FAILURE" ∧
          tr.meta = .failureReason
            (getVote (fun _ => none) 1000 [] none "p" (.response "Not JSON")).reason)) :=
  get_vote_one_trace (fun _ => none) 1000 [] none "p" "Not JSON" rfl

/-! ### Rewrite validation and emission (C5) -/

/-- Counterexample to C5: a proposal rejected by the brace check (here a
rewrite consisting of a single `{`) is dropped from the confirmed set,
and the function's original code (`XYZZY`) does **not** appear anywhere
in the emitted module source — no warning-comment fallback happens at
this stage. -/
theorem rejected_rewrite_not_preserved :
    refactoringValidator [⟨"f", "XYZZY", "\x7b", [], true⟩] = [] ∧
    strContainsSub
      (generatedSource "mathutils" []
        (refactoringValidator [⟨"f", "XYZZY", "\x7b", [], true⟩]))
      "XYZZY" = false := by
  constructor
  · rfl
  · set_option maxRecDepth 4000 in decide

/-- Claim C5 as amended: the validator confirms a proposal iff its
rewritten code has equally many `{` and `}`; a brace-rejected proposal is
omitted entirely — the emitted module source is unchanged by its
presence (the original-code-with-warning fallback happens only in
`refactoring_agent` when the oracle call itself fails). -/
theorem rewrite_validator_brace_rule :
    (∀ (ps : List RefactoringProposal) (p : RefactoringProposal),
       p ∈ refactoringValidator ps ↔
         p ∈ ps ∧ countChar openBrace p.refactoredCode =
           countChar closeBrace p.refactoredCode) ∧
    (∀ (moduleName : String) (structDefs : List String)
       (ps : List RefactoringProposal) (q : RefactoringProposal),
       countChar openBrace q.refactoredCode ≠
           countChar closeBrace q.refactoredCode →
       generatedSource moduleName structDefs
           (refactoringValidator (ps ++ [q])) =
         generatedSource moduleName structDefs (refactoringValidator ps)) := by
  constructor
  · intro ps p
    simp [refactoringValidator, List.mem_filter, braceBalanced]
  · intro moduleName structDefs ps q hq
    unfold refactoringValidator
    rw [List.filter_append]
    have : [q].filter braceBalanced = [] := by
      simp [braceBalanced, hq]
    rw [this, List.append_nil]

/-- Witness for the amended C5: appending a concrete brace-rejected
proposal leaves the emitted source unchanged. -/
theorem rewrite_validator_brace_rule_witness :
    generatedSource "mathutils" []
        (refactoringValidator ([] ++ [⟨"f", "XYZZY", "\x7b", [], true⟩])) =
      generatedSource "mathutils" [] (refactoringValidator []) :=
  rewrite_validator_brace_rule.2 "mathutils" [] []
    ⟨"f", "XYZZY", "\x7b", [], true⟩ (by decide)

/-! ### Cancellation (C7) -/

/-- Counterexample to C7: with the cancellation signal asserted before
the very first sample, the spec-side loop (which polls it) makes no
oracle call and returns `(nil, cancelled)`, but the source `do_voting`
has no cancellation input at all: on the same oracle stream it issues
two oracle calls and returns a winner.  New oracle calls are therefore
issued after cancellation is asserted. -/
theorem voting_never_polls_cancellation :
    doVotingCancelSpec (fun _ => true) (fun _ => .valid "v") 2 =
        (none, 0, 0, true) ∧
    doVoting (fun _ => .valid "v") 2 = (some "v", 2, 2) := by
  constructor
  · rfl
  · decide

/-- Claim C7 as amended: cancellation is observed only at the five stage
boundaries of `process_module` — a worker whose stop signal is set at
any boundary produces no module result, and a worker cancelled at entry
issues no oracle call at all; in between (in particular inside the
voting loop) the signal is never polled. -/
theorem process_module_stops_at_boundaries :
    (∀ (stop : Nat → Bool) (stageCalls : Nat → Nat),
       (∃ i, i ≤ 4 ∧ stop i = true) →
       (processModuleFlow stop stageCalls).1 = false) ∧
    (∀ (stop : Nat → Bool) (stageCalls : Nat → Nat),
       stop 0 = true → processModuleFlow stop stageCalls = (false, 0)) := by
  constructor
  · rintro stop stageCalls ⟨i, hi, hstop⟩
    unfold processModuleFlow
    split_ifs <;> first
      | rfl
      | (interval_cases i <;> simp_all)
  · intro stop stageCalls h0
    unfold processModuleFlow
    rw [if_pos h0]

/-- Witness for the amended C7: stop asserted at entry. -/
theorem process_module_stops_witness :
    (processModuleFlow (fun _ => true) (fun _ => 5)).1 = false ∧
    processModuleFlow (fun _ => true) (fun _ => 5) = (false, 0) :=
  ⟨process_module_stops_at_boundaries.1 (fun _ => true) (fun _ => 5)
      ⟨0, by norm_num, rfl⟩,
   process_module_stops_at_boundaries.2 (fun _ => true) (fun _ => 5) rfl⟩

/-! ### First-to-ahead-by-k voting (C2, C10) -/

lemma tallyIncr_isEmpty (counts : List (String × Nat)) (key : String) :
    (tallyIncr counts key).isEmpty = false := by
  cases counts with
  | nil => rfl
  | cons kv rest =>
      obtain ⟨k, v⟩ := kv
      unfold tallyIncr
      split <;> rfl

lemma tallyAfter_succ_valid {oracle : Nat → SampleResult} {n : Nat} {key : String}
    (h : oracle n = .valid key) :
    tallyAfter oracle (n + 1) = tallyIncr (tallyAfter oracle n) key := by
  have hdef : tallyAfter oracle (n + 1) =
      match oracle n with
      | .invalid => tallyAfter oracle n
      | .valid key => tallyIncr (tallyAfter oracle n) key := rfl
  rw [hdef, h]

lemma tallyAfter_succ_invalid {oracle : Nat → SampleResult} {n : Nat}
    (h : oracle n = .invalid) :
    tallyAfter oracle (n + 1) = tallyAfter oracle n := by
  have hdef : tallyAfter oracle (n + 1) =
      match oracle n with
      | .invalid => tallyAfter oracle n
      | .valid key => tallyIncr (tallyAfter oracle n) key := rfl
  rw [hdef, h]

lemma validCountAfter_succ_valid {oracle : Nat → SampleResult} {n : Nat} {key : String}
    (h : oracle n = .valid key) :
    validCountAfter oracle (n + 1) = validCountAfter oracle n + 1 := by
  have hdef : validCountAfter oracle (n + 1) =
      match oracle n with
      | .invalid => validCountAfter oracle n
      | .valid _ => validCountAfter oracle n + 1 := rfl
  rw [hdef, h]

lemma validCountAfter_succ_invalid {oracle : Nat → SampleResult} {n : Nat}
    (h : oracle n = .invalid) :
    validCountAfter oracle (n + 1) = validCountAfter oracle n := by
  have hdef : validCountAfter oracle (n + 1) =
      match oracle n with
      | .invalid => validCountAfter oracle n
      | .valid _ => validCountAfter oracle n + 1 := rfl
  rw [hdef, h]

/-- The loop, started at a state reached after `j` samples, returns at
the first later sample `n` whose tally meets the margin. -/
lemma votingLoop_wins (oracle : Nat → SampleResult) (k n : Nat)
    (hv : isValidAt oracle n = true)
    (hm : marginMet (tallyAfter oracle (n + 1)) k = true) :
    ∀ fuel j, j ≤ n → n < j + fuel →
    (∀ m, j ≤ m → m < n →
      ¬(isValidAt oracle m = true ∧ marginMet (tallyAfter oracle (m + 1)) k = true)) →
    votingLoop oracle k fuel (tallyAfter oracle j) j (validCountAfter oracle j) =
      (firstAtCount (tallyAfter oracle (n + 1)) (maxCount (tallyAfter oracle (n + 1))),
        n + 1, validCountAfter oracle (n + 1)) := by
  intro fuel
  induction fuel with
  | zero => intro j hj hn _; omega
  | succ fuel ih =>
      intro j hj hn hnowin
      rcases Nat.lt_or_ge j n with hlt | hge
      · -- j < n: one more step, no win yet at j
        cases horacle : oracle j with
        | invalid =>
            have ht := tallyAfter_succ_invalid horacle
            have hc := validCountAfter_succ_invalid horacle
            rw [votingLoop, horacle, ← ht, ← hc]
            exact ih (j + 1) (by omega) (by omega)
              (fun m hm1 hm2 => hnowin m (by omega) hm2)
        | valid key =>
            have ht := tallyAfter_succ_valid horacle
            have hc := validCountAfter_succ_valid horacle
            have hvalid : isValidAt oracle j = true := by
              unfold isValidAt; rw [horacle]
            have hnomargin : marginMet (tallyAfter oracle (j + 1)) k = false := by
              cases h : marginMet (tallyAfter oracle (j + 1)) k with
              | false => rfl
              | true => exact absurd ⟨hvalid, h⟩ (hnowin j le_rfl hlt)
            have hcond : ¬ (secondMaxCount (tallyIncr (tallyAfter oracle j) key)
                (maxCount (tallyIncr (tallyAfter oracle j) key)) + k ≤
                  maxCount (tallyIncr (tallyAfter oracle j) key)) := by
              intro hle
              have hmm : marginMet (tallyAfter oracle (j + 1)) k = true := by
                rw [marginMet, ht, tallyIncr_isEmpty]
                simp [hle]
              rw [hmm] at hnomargin
              simp at hnomargin
            rw [votingLoop, horacle]
            simp only [if_neg hcond]
            rw [← ht, ← hc]
            exact ih (j + 1) (by omega) (by omega)
              (fun m hm1 hm2 => hnowin m (by omega) hm2)
      · -- j = n: the winning sample
        have hjn : j = n := le_antisymm hj hge
        subst hjn
        cases horacle : oracle j with
        | invalid =>
            exfalso
            unfold isValidAt at hv
            rw [horacle] at hv
            exact Bool.false_ne_true hv
        | valid key =>
            have ht := tallyAfter_succ_valid horacle
            have hc := validCountAfter_succ_valid horacle
            have hcond : secondMaxCount (tallyIncr (tallyAfter oracle j) key)
                (maxCount (tallyIncr (tallyAfter oracle j) key)) + k ≤
                  maxCount (tallyIncr (tallyAfter oracle j) key) := by
              rw [marginMet, ht, tallyIncr_isEmpty] at hm
              simpa using hm
            rw [votingLoop, horacle]
            simp only [if_pos hcond]
            rw [← ht, ← hc]

/-- The loop, started after `j` samples with `fuel` samples left before
the ceiling and no margin-k winner among them, runs to the ceiling and
returns the mode (or `none` on an empty tally). -/
lemma votingLoop_ceiling (oracle : Nat → SampleResult) (k : Nat) :
    ∀ fuel j,
    (∀ m, j ≤ m → m < j + fuel →
      ¬(isValidAt oracle m = true ∧ marginMet (tallyAfter oracle (m + 1)) k = true)) →
    votingLoop oracle k fuel (tallyAfter oracle j) j (validCountAfter oracle j) =
      (if (tallyAfter oracle (j + fuel)).isEmpty
        then none
        else firstAtCount (tallyAfter oracle (j + fuel))
          (maxCount (tallyAfter oracle (j + fuel))),
        j + fuel, validCountAfter oracle (j + fuel)) := by
  intro fuel
  induction fuel with
  | zero =>
      intro j _
      rw [votingLoop]
      simp only [Nat.add_zero]
      split <;> rfl
  | succ fuel ih =>
      intro j hnowin
      cases horacle : oracle j with
      | invalid =>
          have ht := tallyAfter_succ_invalid horacle
          have hc := validCountAfter_succ_invalid horacle
          rw [votingLoop, horacle, ← ht, ← hc]
          have := ih (j + 1) (fun m hm1 hm2 => hnowin m (by omega) (by omega))
          rw [this]
          have harith : j + 1 + fuel = j + (fuel + 1) := by omega
          rw [harith]
      | valid key =>
          have ht := tallyAfter_succ_valid horacle
          have hc := validCountAfter_succ_valid horacle
          have hvalid : isValidAt oracle j = true := by
            unfold isValidAt; rw [horacle]
          have hnomargin : marginMet (tallyAfter oracle (j + 1)) k = false := by
            cases h : marginMet (tallyAfter oracle (j + 1)) k with
            | false => rfl
            | true => exact absurd ⟨hvalid, h⟩ (hnowin j le_rfl (by omega))
          have hcond : ¬ (secondMaxCount (tallyIncr (tallyAfter oracle j) key)
              (maxCount (tallyIncr (tallyAfter oracle j) key)) + k ≤
                maxCount (tallyIncr (tallyAfter oracle j) key)) := by
            intro hle
            have hmm : marginMet (tallyAfter oracle (j + 1)) k = true := by
              rw [marginMet, ht, tallyIncr_isEmpty]
              simp [hle]
            rw [hmm] at hnomargin
            simp at hnomargin
          rw [votingLoop, horacle]
          simp only [if_neg hcond]
          rw [← ht, ← hc]
          have := ih (j + 1) (fun m hm1 hm2 => hnowin m (by omega) (by omega))
          rw [this]
          have harith : j + 1 + fuel = j + (fuel + 1) := by omega
          rw [harith]

lemma tallyAfter_all_invalid {oracle : Nat → SampleResult} :
    ∀ j, (∀ m, m < j → oracle m = .invalid) →
      tallyAfter oracle j = [] ∧ validCountAfter oracle j = 0 := by
  intro j
  induction j with
  | zero => intro _; exact ⟨rfl, rfl⟩
  | succ j ih =>
      intro h
      obtain ⟨ht, hc⟩ := ih (fun m hm => h m (by omega))
      have hj := h j (by omega)
      rw [tallyAfter_succ_invalid hj, validCountAfter_succ_invalid hj]
      exact ⟨ht, hc⟩

/-- Claim C2: the voting loop returns the canonical winner exactly at
the first guard-accepted sample whose tally satisfies `m₁ − m₂ ≥ k`
(first conjunct); if the hard ceiling of 100 samples is reached with no
margin-k winner and a nonempty tally, it returns the mode — the first
candidate with the maximum count — as a best-effort result (second
conjunct). -/
theorem voting_first_to_ahead_by_k :
    (∀ (oracle : Nat → SampleResult) (k n : Nat), n < 100 →
      winsAt oracle k n = true →
      doVoting oracle k =
        (firstAtCount (tallyAfter oracle (n + 1))
            (maxCount (tallyAfter oracle (n + 1))),
          n + 1, validCountAfter oracle (n + 1))) ∧
    (∀ (oracle : Nat → SampleResult) (k : Nat),
      (∀ m, m < 100 →
        ¬(isValidAt oracle m = true ∧
            marginMet (tallyAfter oracle (m + 1)) k = true)) →
      tallyAfter oracle 100 ≠ [] →
      doVoting oracle k =
        (firstAtCount (tallyAfter oracle 100) (maxCount (tallyAfter oracle 100)),
          100, validCountAfter oracle 100)) := by
  constructor
  · intro oracle k n hn hwin
    rw [winsAt] at hwin
    simp only [Bool.and_eq_true, List.all_eq_true, List.mem_range] at hwin
    obtain ⟨⟨hv, hm⟩, hnowin⟩ := hwin
    have hnowin' : ∀ m, 0 ≤ m → m < n →
        ¬(isValidAt oracle m = true ∧
            marginMet (tallyAfter oracle (m + 1)) k = true) := by
      intro m _ hmn hcontra
      have := hnowin m hmn
      rw [hcontra.1, hcontra.2] at this
      simp at this
    have := votingLoop_wins oracle k n hv hm 100 0 (by omega) (by omega) hnowin'
    simpa [doVoting, tallyAfter, validCountAfter] using this
  · intro oracle k hnowin hne
    have hnowin' : ∀ m, 0 ≤ m → m < 0 + 100 →
        ¬(isValidAt oracle m = true ∧
            marginMet (tallyAfter oracle (m + 1)) k = true) := by
      intro m _ hm
      exact hnowin m (by omega)
    have := votingLoop_ceiling oracle k 100 0 hnowin'
    have hempty : (tallyAfter oracle 100).isEmpty = false := by
      cases htally : tallyAfter oracle 100 with
      | nil => exact absurd htally hne
      | cons a l => rfl
    rw [show (0 + 100) = 100 from rfl, hempty] at this
    exact this

/-- Witness for C2 at the constant oracle stream `valid "v"` with
`k = 2`: the margin is first met after sample 2. -/
theorem voting_first_to_ahead_by_k_witness :
    doVoting (fun _ => .valid "v") 2 =
      (firstAtCount (tallyAfter (fun _ => .valid "v") 2)
          (maxCount (tallyAfter (fun _ => .valid "v") 2)),
        2, validCountAfter (fun _ => .valid "v") 2) :=
  voting_first_to_ahead_by_k.1 (fun _ => .valid "v") 2 1 (by norm_num) (by decide)

/-- Claim C10: if the loop reaches the sample ceiling with zero
guard-accepted samples (an empty vote tally), `do_voting` returns `None`
together with the total (100) and valid (0) sample counts — neither a
mode nor an error. -/
theorem voting_empty_tally_returns_none (oracle : Nat → SampleResult) (k : Nat)
    (hinv : ∀ n, n < 100 → oracle n = .invalid) :
    doVoting oracle k = (none, 100, 0) := by
  have hnowin : ∀ m, 0 ≤ m → m < 0 + 100 →
      ¬(isValidAt oracle m = true ∧
          marginMet (tallyAfter oracle (m + 1)) k = true) := by
    intro m _ hm hcontra
    have := hinv m (by omega)
    unfold isValidAt at hcontra
    rw [this] at hcontra
    exact Bool.false_ne_true hcontra.1
  have hceil := votingLoop_ceiling oracle k 100 0 hnowin
  obtain ⟨ht, hc⟩ := tallyAfter_all_invalid 100 (fun m hm => hinv m hm)
  rw [show (0 + 100) = 100 from rfl, ht, hc] at hceil
  exact hceil

/-- Witness for C10: the all-rejected oracle stream. -/
theorem voting_empty_tally_returns_none_witness :
    doVoting (fun _ => .invalid) 2 = (none, 100, 0) :=
  voting_empty_tally_returns_none (fun _ => .invalid) 2 (fun n _ => rfl)

/-! ### Identifier-safe substitution (C8) -/

lemma findBlockEnd_append :
    ∀ (xs : List Char) (p : List Char × List Char),
      findBlockEnd xs = some p → p.1 ++ p.2 = xs := by
  intro xs
  induction xs with
  | nil => intro p h; simp [findBlockEnd] at h
  | cons c rest ih =>
      intro p h
      rw [findBlockEnd] at h
      split at h
      · next hcond =>
          obtain ⟨hc, hh⟩ := hcond
          cases rest with
          | nil => simp at hh
          | cons d rest2 =>
              simp at hh
              injection h with h
              subst hc hh
              rw [← h]
              rfl
      · rw [Option.map_eq_some'] at h
        obtain ⟨q, hq, hpq⟩ := h
        rw [← hpq]
        have := ih q hq
        simpa using this

lemma matchQuotedBody_append (q : Char) :
    ∀ (bound : Nat) (xs : List Char), xs.length ≤ bound →
      ∀ p, matchQuotedBody q xs = some p → p.1 ++ p.2 = xs := by
  intro bound
  induction bound with
  | zero =>
      intro xs hlen p h
      have : xs = [] := List.length_eq_zero.mp (Nat.le_zero.mp hlen)
      subst this
      simp [matchQuotedBody] at h
  | succ bound ih =>
      intro xs hlen p h
      cases xs with
      | nil => simp [matchQuotedBody] at h
      | cons c rest =>
          cases rest with
          | nil =>
              have hdef : matchQuotedBody q [c] =
                  (if c = q then some ([q], ([] : List Char))
                   else if c = '\\' then none
                   else (matchQuotedBody q []).map (fun p => (c :: p.1, p.2))) := rfl
              rw [hdef] at h
              split at h
              · next hc =>
                  injection h with h
                  rw [← h, hc]
                  rfl
              · split at h
                · simp at h
                · simp [matchQuotedBody] at h
          | cons d rest2 =>
              have hdef : matchQuotedBody q (c :: d :: rest2) =
                  (if c = q then some ([q], d :: rest2)
                   else if c = '\\' then
                     (if d = '\n' then none
                      else (matchQuotedBody q rest2).map
                        (fun p => (c :: d :: p.1, p.2)))
                   else (matchQuotedBody q (d :: rest2)).map
                     (fun p => (c :: p.1, p.2))) := rfl
              rw [hdef] at h
              split at h
              · next hc =>
                  injection h with h
                  rw [← h, hc]
                  rfl
              · split at h
                · next hbs =>
                    split at h
                    · simp at h
                    · rw [Option.map_eq_some'] at h
                      obtain ⟨b, hb, hpb⟩ := h
                      have hlen2 : rest2.length ≤ bound := by
                        simp at hlen; omega
                      have := ih rest2 hlen2 b hb
                      rw [← hpb, hbs]
                      simpa using this
                · rw [Option.map_eq_some'] at h
                  obtain ⟨b, hb, hpb⟩ := h
                  have hlen2 : (d :: rest2).length ≤ bound := by
                    simp at hlen ⊢; omega
                  have := ih (d :: rest2) hlen2 b hb
                  rw [← hpb]
                  simpa using this

lemma tryBlockComment_append (code : List Char) (p : List Char × List Char)
    (h : tryBlockComment code = some p) : p.1 ++ p.2 = code := by
  cases code with
  | nil => simp [tryBlockComment] at h
  | cons c rest =>
      cases rest with
      | nil => simp [tryBlockComment] at h
      | cons d rest2 =>
          have hdef : tryBlockComment (c :: d :: rest2) =
              (if c = '/' ∧ d = '*' then
                (findBlockEnd rest2).map (fun p => ('/' :: '*' :: p.1, p.2))
              else none) := rfl
          rw [hdef] at h
          split at h
          · next hcd =>
              obtain ⟨hc, hd⟩ := hcd
              rw [Option.map_eq_some'] at h
              obtain ⟨b, hb, hpb⟩ := h
              have := findBlockEnd_append rest2 b hb
              rw [← hpb, hc, hd]
              simpa using this
          · simp at h

lemma tryLineComment_append (code : List Char) (p : List Char × List Char)
    (h : tryLineComment code = some p) : p.1 ++ p.2 = code := by
  cases code with
  | nil => simp [tryLineComment] at h
  | cons c rest =>
      cases rest with
      | nil => simp [tryLineComment] at h
      | cons d rest2 =>
          have hdef : tryLineComment (c :: d :: rest2) =
              (if c = '/' ∧ d = '/' then
                some ('/' :: '/' :: rest2.takeWhile (fun x => x ≠ '\n'),
                      rest2.dropWhile (fun x => x ≠ '\n'))
              else none) := rfl
          rw [hdef] at h
          split at h
          · next hcd =>
              obtain ⟨hc, hd⟩ := hcd
              injection h with h
              rw [← h, hc, hd]
              simp [List.takeWhile_append_dropWhile]
          · simp at h

lemma tryQuoted_append (q : Char) (code : List Char) (p : List Char × List Char)
    (h : tryQuoted q code = some p) : p.1 ++ p.2 = code := by
  cases code with
  | nil => simp [tryQuoted] at h
  | cons c rest =>
      have hdef : tryQuoted q (c :: rest) =
          (if c = q then (matchQuotedBody q rest).map (fun p => (q :: p.1, p.2))
           else none) := rfl
      rw [hdef] at h
      split at h
      · next hc =>
          rw [Option.map_eq_some'] at h
          obtain ⟨b, hb, hpb⟩ := h
          have := matchQuotedBody_append q rest.length rest le_rfl b hb
          rw [← hpb, hc]
          simpa using this
      · simp at h

lemma trySkip_append (code : List Char) (p : List Char × List Char)
    (h : trySkip code = some p) : p.1 ++ p.2 = code := by
  unfold trySkip at h
  cases h1 : tryBlockComment code with
  | some b =>
      rw [h1] at h
      injection h with h
      exact tryBlockComment_append code p (by rw [h1, h])
  | none =>
      rw [h1] at h
      cases h2 : tryLineComment code with
      | some b =>
          rw [h2] at h
          injection h with h
          exact tryLineComment_append code p (by rw [h2, h])
      | none =>
          rw [h2] at h
          cases h3 : tryQuoted '"' code with
          | some b =>
              rw [h3] at h
              injection h with h
              exact tryQuoted_append '"' code p (by rw [h3, h])
          | none =>
              rw [h3] at h
              exact tryQuoted_append '\'' code p h

lemma subScan_snd_indep (o n n' : List Char) :
    ∀ (fuel : Nat) (prevW : Bool) (code : List Char),
      (subScan o n fuel prevW code).2 = (subScan o n' fuel prevW code).2 := by
  intro fuel
  induction fuel with
  | zero => intro prevW code; rfl
  | succ fuel ih =>
      intro prevW code
      cases code with
      | nil => rfl
      | cons c rest =>
          rw [subScan, subScan]
          cases hskip : trySkip (c :: rest) with
          | some p =>
              obtain ⟨chunk, after⟩ := p
              simp only [ih]
          | none =>
              cases htgt : tryTarget o prevW (c :: rest) with
              | some after => simp only [ih]
              | none => simp only [ih]

lemma subScan_fst_of_snd_zero (o n : List Char) :
    ∀ (fuel : Nat) (prevW : Bool) (code : List Char),
      (subScan o n fuel prevW code).2 = 0 →
      (subScan o n fuel prevW code).1 = code := by
  intro fuel
  induction fuel with
  | zero => intro prevW code _; rfl
  | succ fuel ih =>
      intro prevW code hz
      cases code with
      | nil => rfl
      | cons c rest =>
          cases hskip : trySkip (c :: rest) with
          | some p =>
              obtain ⟨chunk, after⟩ := p
              rw [subScan] at hz ⊢
              rw [hskip] at hz ⊢
              simp only at hz ⊢
              have := ih (isWordChar (chunk.getLastD c)) after hz
              rw [this]
              exact trySkip_append (c :: rest) (chunk, after) hskip
          | none =>
              cases htgt : tryTarget o prevW (c :: rest) with
              | some after =>
                  rw [subScan, hskip, htgt] at hz
                  simp at hz
              | none =>
                  rw [subScan] at hz ⊢
                  rw [hskip, htgt] at hz ⊢
                  simp only at hz ⊢
                  have := ih (isWordChar c) rest hz
                  rw [this]

lemma safeReplace_of_no_free (code target replacement : String)
    (h : freeMatchCount code target = 0) :
    safeReplace code target replacement = code := by
  have h2 : (subScan target.toList replacement.toList
      (code.length + 1) false code.toList).2 = 0 := by
    have hsnd := subScan_snd_indep target.toList replacement.toList
      target.toList (code.length + 1) false code.toList
    rw [hsnd]
    exact h
  have h1 := subScan_fst_of_snd_zero target.toList replacement.toList
    (code.length + 1) false code.toList h2
  show String.mk (subScan target.toList replacement.toList
      (code.length + 1) false code.toList).1 = code
  rw [h1]
  cases code
  rfl

lemma applyRenames_fixed (renames : List (String × String)) (x : String)
    (h : ∀ p ∈ renames, freeMatchCount x p.1 = 0) :
    applyRenames renames x = x := by
  induction renames with
  | nil => rfl
  | cons r rest ih =>
      have hstep : safeReplace x r.1 r.2 = x :=
        safeReplace_of_no_free x r.1 r.2 (h r (List.mem_cons_self r rest))
      unfold applyRenames at ih ⊢
      simp only [List.foldl_cons, hstep]
      exact ih (fun p hp => h p (List.mem_cons_of_mem r hp))

/-- Counterexample to C8: with `confirmed_renames` applied in insertion
order `a→b, c→a`, the code `"c"` becomes `"a"` after one application and
`"b"` after two — applying the mapping again does not reproduce the
once-applied text. -/
theorem rename_apply_not_idempotent :
    applyRenames [("a", "b"), ("c", "a")]
        (applyRenames [("a", "b"), ("c", "a")] "c") ≠
      applyRenames [("a", "b"), ("c", "a")] "c" := by decide

/-- Claim C8 as amended: applying `confirmed_renames` a second time
reproduces the once-applied text whenever no rename source still occurs
free (as a word-bounded identifier outside string/char literals and
comments) in the once-applied text — in particular whenever the new
names are fresh identifiers distinct from all old names.  Without that
proviso a second application can change the text again (e.g. when one
pair's new name is another pair's old name, see the counterexample). -/
theorem rename_apply_idempotent (renames : List (String × String)) (code : String)
    (h : ∀ p ∈ renames, freeMatchCount (applyRenames renames code) p.1 = 0) :
    applyRenames renames (applyRenames renames code) =
      applyRenames renames code :=
  applyRenames_fixed renames (applyRenames renames code) h

/-- Witness for the amended C8 on a decompiled-code fragment with the
rename `iVar1 → width`. -/
theorem rename_apply_idempotent_witness :
    applyRenames [("iVar1", "width")]
        (applyRenames [("iVar1", "width")]
          "int f(int iVar1) \x7b return iVar1; \x7d") =
      applyRenames [("iVar1", "width")]
        "int f(int iVar1) \x7b return iVar1; \x7d" :=
  rename_apply_idempotent [("iVar1", "width")]
    "int f(int iVar1) \x7b return iVar1; \x7d" (by decide)

/-! ### Librarian clustering (C4) -/

/-- The exported function names, in order. -/
def fnNames (functions : List FunctionUnit) : List String :=
  functions.map (fun f => f.name)

lemma foldl_preserve {α β : Type} (P : β → Prop) (f : β → α → β) :
    ∀ (l : List α) (b : β), P b → (∀ b a, a ∈ l → P b → P (f b a)) →
      P (l.foldl f b) := by
  intro l
  induction l with
  | nil => intro b hb _; exact hb
  | cons a t ih =>
      intro b hb hstep
      exact ih (f b a) (hstep b a (List.mem_cons_self a t) hb)
        (fun b' a' ha' hb' => hstep b' a' (List.mem_cons_of_mem a ha') hb')

lemma dictUpsert_values {S : List String} :
    ∀ (d : List (String × String)) (k v : String),
      (∀ kv ∈ d, kv.2 ∈ S) → v ∈ S →
      ∀ kv ∈ dictUpsert d k v, kv.2 ∈ S := by
  intro d k v hd hv kv hkv
  unfold dictUpsert at hkv
  split at hkv
  · rw [List.mem_map] at hkv
    obtain ⟨kv0, hkv0, heq⟩ := hkv
    by_cases h0 : kv0.1 = k
    · rw [if_pos h0] at heq
      rw [← heq]
      exact hv
    · rw [if_neg h0] at heq
      rw [← heq]
      exact hd kv0 hkv0
  · rw [List.mem_append] at hkv
    rcases hkv with h | h
    · exact hd kv h
    · simp at h
      rw [h]
      exact hv

lemma addrToName_values (functions : List FunctionUnit) :
    ∀ kv ∈ addrToName functions, kv.2 ∈ fnNames functions := by
  unfold addrToName
  refine foldl_preserve
    (fun d : List (String × String) => ∀ kv ∈ d, kv.2 ∈ fnNames functions)
    _ functions [] (by intro kv h; simp at h) ?_
  intro d f hf hd
  exact dictUpsert_values d f.address f.name hd
    (List.mem_map.mpr ⟨f, hf, rfl⟩)

lemma adjInsert_values {S : List String} :
    ∀ (g : List (String × List String)) (k v : String),
      (∀ kv ∈ g, ∀ x ∈ kv.2, x ∈ S) → v ∈ S →
      ∀ kv ∈ adjInsert g k v, ∀ x ∈ kv.2, x ∈ S := by
  intro g k v hg hv kv hkv
  unfold adjInsert at hkv
  split at hkv
  · rw [List.mem_map] at hkv
    obtain ⟨kv0, hkv0, heq⟩ := hkv
    by_cases h0 : kv0.1 = k
    · rw [if_pos h0] at heq
      rw [← heq]
      intro x hx
      simp only at hx
      split at hx
      · exact hg kv0 hkv0 x hx
      · rw [List.mem_append] at hx
        rcases hx with h | h
        · exact hg kv0 hkv0 x h
        · simp at h
          rw [h]
          exact hv
    · rw [if_neg h0] at heq
      rw [← heq]
      exact hg kv0 hkv0
  · rw [List.mem_append] at hkv
    rcases hkv with h | h
    · exact hg kv h
    · simp at h
      intro x hx
      rw [h] at hx
      simp at hx
      rw [hx]
      exact hv

lemma buildCallGraph_values (functions : List FunctionUnit) :
    ∀ kv ∈ buildCallGraph functions, ∀ x ∈ kv.2, x ∈ fnNames functions := by
  unfold buildCallGraph
  refine foldl_preserve
    (fun g : List (String × List String) =>
      ∀ kv ∈ g, ∀ x ∈ kv.2, x ∈ fnNames functions)
    _ functions [] (by intro kv h; simp at h) ?_
  intro g f hf hg
  refine foldl_preserve
    (fun g : List (String × List String) =>
      ∀ kv ∈ g, ∀ x ∈ kv.2, x ∈ fnNames functions)
    _ f.calls g hg ?_
  intro g' c _ hg'
  cases c with
  | none => exact hg'
  | some calledName =>
      simp only
      split
      · next hcond =>
          have hcalled : calledName ∈ fnNames functions := by
            obtain ⟨-, hmem⟩ := hcond
            rw [exportedNames, List.mem_map] at hmem
            obtain ⟨kv, hkv, hkveq⟩ := hmem
            rw [← hkveq]
            exact addrToName_values functions kv hkv
          have hfname : f.name ∈ fnNames functions :=
            List.mem_map.mpr ⟨f, hf, rfl⟩
          exact adjInsert_values _ calledName f.name
            (adjInsert_values _ f.name calledName hg' hcalled) hfname
      · exact hg'

lemma graphGet_buildCallGraph (functions : List FunctionUnit) :
    ∀ k x, x ∈ graphGet (buildCallGraph functions) k → x ∈ fnNames functions := by
  intro k x hx
  unfold graphGet at hx
  cases hfind : (buildCallGraph functions).find? (fun kv => kv.1 = k) with
  | none => rw [hfind] at hx; simp at hx
  | some kv =>
      rw [hfind] at hx
      simp only [Option.map_some', Option.getD_some] at hx
      exact buildCallGraph_values functions kv
        (List.mem_of_find?_eq_some hfind) x hx

lemma dfsLoop_spec (graph : List (String × List String)) (hardLimit : Nat) :
    ∀ (fuel : Nat) (stack visited cluster : List String),
      ∃ d : List String,
        (dfsLoop graph hardLimit fuel stack visited cluster).1 =
          d.reverse ++ visited ∧
        (dfsLoop graph hardLimit fuel stack visited cluster).2 = cluster ++ d ∧
        d.Nodup ∧ (∀ x ∈ d, x ∉ visited) := by
  intro fuel
  induction fuel with
  | zero =>
      intro stack visited cluster
      exact ⟨[], by simp [dfsLoop], by simp [dfsLoop], List.nodup_nil,
        by intro x hx; simp at hx⟩
  | succ fuel ih =>
      intro stack visited cluster
      cases stack with
      | nil =>
          exact ⟨[], by simp [dfsLoop], by simp [dfsLoop], List.nodup_nil,
            by intro x hx; simp at hx⟩
      | cons current rest =>
          by_cases hvis : current ∈ visited
          · have hdef : dfsLoop graph hardLimit (fuel + 1)
                (current :: rest) visited cluster =
                dfsLoop graph hardLimit fuel rest visited cluster := by
              rw [dfsLoop, if_pos hvis]
            rw [hdef]
            exact ih rest visited cluster
          · by_cases hcap : hardLimit ≤ cluster.length
            · have hdef : dfsLoop graph hardLimit (fuel + 1)
                  (current :: rest) visited cluster = (visited, cluster) := by
                rw [dfsLoop, if_neg hvis, if_pos hcap]
              rw [hdef]
              exact ⟨[], by simp, by simp, List.nodup_nil,
                by intro x hx; simp at hx⟩
            · have hdef : dfsLoop graph hardLimit (fuel + 1)
                  (current :: rest) visited cluster =
                  dfsLoop graph hardLimit fuel
                    (((graphGet graph current).filter
                      (fun x => x ∉ current :: visited)).reverse ++ rest)
                    (current :: visited) (cluster ++ [current]) := by
                rw [dfsLoop, if_neg hvis, if_neg hcap]
              rw [hdef]
              obtain ⟨d2, hv, hc, hnd, hdis⟩ := ih
                (((graphGet graph current).filter
                  (fun x => x ∉ current :: visited)).reverse ++ rest)
                (current :: visited) (cluster ++ [current])
              refine ⟨current :: d2, ?_, ?_, ?_, ?_⟩
              · rw [hv]
                simp
              · rw [hc]
                simp
              · refine List.nodup_cons.mpr ⟨?_, hnd⟩
                intro hmem
                exact (hdis current hmem) (List.mem_cons_self current visited)
              · intro x hx
                rcases List.mem_cons.mp hx with h | h
                · rw [h]; exact hvis
                · intro hxv
                  exact (hdis x h) (List.mem_cons_of_mem current hxv)

lemma dfsLoop_cluster_le (graph : List (String × List String)) (hardLimit : Nat) :
    ∀ (fuel : Nat) (stack visited cluster : List String),
      cluster.length ≤ hardLimit →
      (dfsLoop graph hardLimit fuel stack visited cluster).2.length ≤ hardLimit := by
  intro fuel
  induction fuel with
  | zero => intro stack visited cluster h; simpa [dfsLoop] using h
  | succ fuel ih =>
      intro stack visited cluster h
      cases stack with
      | nil => simpa [dfsLoop] using h
      | cons current rest =>
          by_cases hvis : current ∈ visited
          · rw [dfsLoop, if_pos hvis]
            exact ih rest visited cluster h
          · by_cases hcap : hardLimit ≤ cluster.length
            · rw [dfsLoop, if_neg hvis, if_pos hcap]
              exact h
            · rw [dfsLoop, if_neg hvis, if_neg hcap]
              refine ih _ _ _ ?_
              simp only [List.length_append, List.length_cons, List.length_nil]
              omega

lemma dfsLoop_cluster_subset (graph : List (String × List String))
    (hardLimit : Nat) (P : String → Prop)
    (hg : ∀ k x, x ∈ graphGet graph k → P x) :
    ∀ (fuel : Nat) (stack visited cluster : List String),
      (∀ x ∈ stack, P x) → (∀ x ∈ cluster, P x) →
      ∀ x ∈ (dfsLoop graph hardLimit fuel stack visited cluster).2, P x := by
  intro fuel
  induction fuel with
  | zero => intro stack visited cluster _ hcl; simpa [dfsLoop] using hcl
  | succ fuel ih =>
      intro stack visited cluster hst hcl
      cases stack with
      | nil => simpa [dfsLoop] using hcl
      | cons current rest =>
          by_cases hvis : current ∈ visited
          · rw [dfsLoop, if_pos hvis]
            exact ih rest visited cluster
              (fun x hx => hst x (List.mem_cons_of_mem current hx)) hcl
          · by_cases hcap : hardLimit ≤ cluster.length
            · rw [dfsLoop, if_neg hvis, if_pos hcap]
              exact hcl
            · rw [dfsLoop, if_neg hvis, if_neg hcap]
              refine ih _ _ _ ?_ ?_
              · intro x hx
                rw [List.mem_append] at hx
                rcases hx with h | h
                · rw [List.mem_reverse] at h
                  exact hg current x (List.mem_of_mem_filter h)
                · exact hst x (List.mem_cons_of_mem current h)
              · intro x hx
                rw [List.mem_append] at hx
                rcases hx with h | h
                · exact hcl x h
                · simp at h
                  rw [h]
                  exact hst current (List.mem_cons_self current rest)

/-- The invariant of the clustering pass: the accumulated modules are
exactly the kept clusters, whose names are pairwise distinct overall,
sized within the bounds, drawn from the exported names and all marked
visited. -/
def ClusterInv (functions : List FunctionUnit) (minSize hardLimit : Nat)
    (acc : List String × List ModuleGroup) : Prop :=
  ∃ clusters : List (List String),
    acc.2 = clusters.map (mkClusterModule functions) ∧
    clusters.flatten.Nodup ∧
    (∀ c ∈ clusters, minSize ≤ c.length ∧ c.length ≤ hardLimit ∧
      ∀ x ∈ c, x ∈ fnNames functions) ∧
    (∀ x ∈ clusters.flatten, x ∈ acc.1)

lemma clusteredPass_spec (functions : List FunctionUnit)
    (minSize hardLimit : Nat) (graph : List (String × List String))
    (hg : ∀ k x, x ∈ graphGet graph k → x ∈ fnNames functions) :
    ClusterInv functions minSize hardLimit
      (clusteredPass functions minSize hardLimit graph) := by
  unfold clusteredPass
  refine foldl_preserve (ClusterInv functions minSize hardLimit) _ functions
    ([], []) ⟨[], rfl, List.nodup_nil, by simp, by simp⟩ ?_
  intro acc f hf hinv
  obtain ⟨clusters, hmods, hnodup, hprops, hvis⟩ := hinv
  simp only
  split
  · exact ⟨clusters, hmods, hnodup, hprops, hvis⟩
  · next hfresh =>
      obtain ⟨d, hdv, hdc, hdnodup, hddis⟩ :=
        dfsLoop_spec graph hardLimit (dfsFuel graph) [f.name] acc.1 []
      have hsub : ∀ x ∈ (dfsLoop graph hardLimit (dfsFuel graph)
          [f.name] acc.1 []).2, x ∈ fnNames functions := by
        refine dfsLoop_cluster_subset graph hardLimit _ hg _ _ _ _ ?_ ?_
        · intro x hx
          simp at hx
          rw [hx]
          exact List.mem_map.mpr ⟨f, hf, rfl⟩
        · intro x hx
          simp at hx
      have hle : (dfsLoop graph hardLimit (dfsFuel graph)
          [f.name] acc.1 []).2.length ≤ hardLimit :=
        dfsLoop_cluster_le graph hardLimit _ _ _ _ (Nat.zero_le _)
      split
      · next hmin =>
          refine ⟨clusters ++ [(dfsLoop graph hardLimit (dfsFuel graph)
            [f.name] acc.1 []).2], ?_, ?_, ?_, ?_⟩
          · simp only [List.map_append, List.map_cons, List.map_nil]
            rw [hmods]
          · rw [List.flatten_append]
            simp only [List.flatten_cons, List.flatten_nil, List.append_nil]
            rw [List.nodup_append]
            refine ⟨hnodup, by rw [hdc]; simpa using hdnodup, ?_⟩
            intro x hx hx2
            rw [hdc] at hx2
            simp at hx2
            exact hddis x hx2 (hvis x hx)
          · intro c hc
            rw [List.mem_append] at hc
            rcases hc with h | h
            · exact hprops c h
            · simp at h
              rw [h]
              exact ⟨hmin, hle, hsub⟩
          · intro x hx
            rw [List.flatten_append] at hx
            simp only [List.flatten_cons, List.flatten_nil, List.append_nil,
              List.mem_append] at hx
            rw [hdv]
            rcases hx with h | h
            · exact List.mem_append_right _ (hvis x h)
            · rw [hdc] at h
              simp at h
              exact List.mem_append_left _ (by simpa using h)
      · refine ⟨clusters, hmods, hnodup, hprops, ?_⟩
        intro x hx
        rw [hdv]
        exact List.mem_append_right _ (hvis x hx)

lemma funcLookup_eq_some (functions : List FunctionUnit) (nm : String)
    (h : nm ∈ fnNames functions) :
    ∃ f, funcLookup functions nm = some f ∧ f.name = nm ∧ f ∈ functions := by
  rw [fnNames, List.mem_map] at h
  obtain ⟨f0, hf0, hf0name⟩ := h
  cases hfind : funcLookup functions nm with
  | none =>
      unfold funcLookup at hfind
      rw [List.find?_eq_none] at hfind
      exact absurd (by simpa using hf0name)
        (by simpa using hfind f0 (List.mem_reverse.mpr hf0))
  | some f =>
      unfold funcLookup at hfind
      have hname : f.name = nm := by
        have := List.find?_some hfind
        simpa using this
      have hmem : f ∈ functions :=
        List.mem_reverse.mp (List.mem_of_find?_eq_some hfind)
      exact ⟨f, rfl, hname, hmem⟩

lemma clusterOf_map_name (functions : List FunctionUnit) :
    ∀ (cluster : List String), (∀ x ∈ cluster, x ∈ fnNames functions) →
      (clusterOf functions cluster).map (fun f => f.name) = cluster := by
  intro cluster
  induction cluster with
  | nil => intro _; rfl
  | cons nm rest ih =>
      intro hsub
      obtain ⟨f, hfind, hname, -⟩ :=
        funcLookup_eq_some functions nm (hsub nm (List.mem_cons_self nm rest))
      unfold clusterOf at ih ⊢
      rw [List.filterMap_cons, hfind]
      simp only [List.map_cons, hname]
      rw [ih (fun x hx => hsub x (List.mem_cons_of_mem nm hx))]

lemma clusterOf_length (functions : List FunctionUnit) (cluster : List String)
    (hsub : ∀ x ∈ cluster, x ∈ fnNames functions) :
    (clusterOf functions cluster).length = cluster.length := by
  have := congrArg List.length (clusterOf_map_name functions cluster hsub)
  simpa using this

lemma mem_clusterOf_elim (functions : List FunctionUnit) (cluster : List String)
    (f : FunctionUnit) (h : f ∈ clusterOf functions cluster) :
    f ∈ functions ∧ f.name ∈ cluster := by
  unfold clusterOf at h
  rw [List.mem_filterMap] at h
  obtain ⟨nm, hnm, hfind⟩ := h
  unfold funcLookup at hfind
  have hname : f.name = nm := by
    have := List.find?_some hfind
    simpa using this
  exact ⟨List.mem_reverse.mp (List.mem_of_find?_eq_some hfind),
    hname ▸ hnm⟩

lemma mem_clusterOf_intro (functions : List FunctionUnit)
    (hnodup : (fnNames functions).Nodup) (cluster : List String)
    (f : FunctionUnit) (hf : f ∈ functions) (hname : f.name ∈ cluster)
    (hsub : ∀ x ∈ cluster, x ∈ fnNames functions) :
    f ∈ clusterOf functions cluster := by
  obtain ⟨f2, hfind, hf2name, hf2mem⟩ :=
    funcLookup_eq_some functions f.name (hsub f.name hname)
  have hinj := (List.nodup_map_iff_inj_on (List.Nodup.of_map _ hnodup)).mp hnodup
  have : f2 = f := hinj f2 hf2mem f hf hf2name
  unfold clusterOf
  rw [List.mem_filterMap]
  exact ⟨f.name, hname, by rw [hfind, this]⟩

lemma chunkGo_flatten {α : Type} (sz : Nat) (hsz : 1 ≤ sz) :
    ∀ (fuel : Nat) (l : List α), l.length ≤ fuel →
      (chunkGo sz fuel l).flatten = l := by
  intro fuel
  induction fuel with
  | zero =>
      intro l hl
      have : l = [] := List.length_eq_zero.mp (Nat.le_zero.mp hl)
      subst this
      rfl
  | succ fuel ih =>
      intro l hl
      cases l with
      | nil => rfl
      | cons a t =>
          rw [chunkGo, if_neg (by omega), List.flatten_cons]
          have hlen : ((a :: t).drop sz).length ≤ fuel := by
            rw [List.length_drop]
            simp only [List.length_cons] at hl ⊢
            omega
          rw [ih ((a :: t).drop sz) hlen]
          exact List.take_append_drop sz (a :: t)

lemma chunkList_flatten {α : Type} (sz : Nat) (hsz : 1 ≤ sz) (l : List α) :
    (chunkList sz l).flatten = l :=
  chunkGo_flatten sz hsz l.length l le_rfl

lemma chunkGo_mem_le {α : Type} (sz : Nat) (hsz : 1 ≤ sz) :
    ∀ (fuel : Nat) (l : List α) (c : List α), l.length ≤ fuel →
      c ∈ chunkGo sz fuel l → 1 ≤ c.length ∧ c.length ≤ sz := by
  intro fuel
  induction fuel with
  | zero =>
      intro l c hl hc
      have : l = [] := List.length_eq_zero.mp (Nat.le_zero.mp hl)
      subst this
      simp [chunkGo] at hc
  | succ fuel ih =>
      intro l c hl hc
      cases l with
      | nil => simp [chunkGo] at hc
      | cons a t =>
          rw [chunkGo, if_neg (by omega)] at hc
          rcases List.mem_cons.mp hc with h | h
          · subst h
            constructor
            · simp only [List.length_take, List.length_cons]
              omega
            · simp only [List.length_take]
              omega
          · have hlen : ((a :: t).drop sz).length ≤ fuel := by
              rw [List.length_drop]
              simp only [List.length_cons] at hl ⊢
              omega
            exact ih ((a :: t).drop sz) c hlen h

lemma chunkList_mem_le {α : Type} (sz : Nat) (hsz : 1 ≤ sz) (l : List α)
    (c : List α) (hc : c ∈ chunkList sz l) : 1 ≤ c.length ∧ c.length ≤ sz :=
  chunkGo_mem_le sz hsz l.length l c le_rfl hc

lemma utilityModules_mem (maxSize : Nat) (orphans : List FunctionUnit)
    (m : ModuleGroup) (hm : m ∈ utilityModules maxSize orphans) :
    ∃ c ∈ chunkList maxSize orphans, m.functions = c := by
  unfold utilityModules at hm
  rw [List.mapIdx_eq_enum_map, List.mem_map] at hm
  obtain ⟨⟨i, c⟩, hmem, heq⟩ := hm
  refine ⟨c, ?_, by rw [← heq]; rfl⟩
  have := List.enum_map_snd (chunkList maxSize orphans)
  rw [← this]
  exact List.mem_map.mpr ⟨(i, c), hmem, rfl⟩

lemma utilityModules_flatMap (maxSize : Nat) (orphans : List FunctionUnit) :
    (utilityModules maxSize orphans).flatMap (fun m => m.functions) =
      (chunkList maxSize orphans).flatten := by
  unfold utilityModules
  rw [List.mapIdx_eq_enum_map]
  rw [List.flatMap_map]
  have h2 : ∀ l : List (Nat × List FunctionUnit),
      (l.flatMap fun a =>
        (Function.uncurry
          (fun i chunk =>
            (⟨s!"utilities_{i + 1}", chunk, []⟩ : ModuleGroup)) a).functions) =
        (l.map (fun p => p.2)).flatten := by
    intro l
    induction l with
    | nil => rfl
    | cons p t ih =>
        obtain ⟨i, c⟩ := p
        simp only [List.flatMap_cons, List.map_cons, List.flatten_cons,
          Function.uncurry_apply_pair, ih]
  rw [h2, List.enum_map_snd]

lemma clusteredMods_map_name (functions : List FunctionUnit) :
    ∀ (clusters : List (List String)),
      (∀ c ∈ clusters, ∀ x ∈ c, x ∈ fnNames functions) →
      ((clusters.map (mkClusterModule functions)).flatMap
        (fun m => m.functions)).map (fun f => f.name) = clusters.flatten := by
  intro clusters
  induction clusters with
  | nil => intro _; rfl
  | cons c rest ih =>
      intro hsub
      simp only [List.map_cons, List.flatMap_cons, List.flatten_cons,
        List.map_append]
      rw [ih (fun c' hc' => hsub c' (List.mem_cons_of_mem c hc'))]
      have : (mkClusterModule functions c).functions = clusterOf functions c := rfl
      rw [this, clusterOf_map_name functions c
        (hsub c (List.mem_cons_self c rest))]

/-- Counterexample to C4 at two concrete inputs.  First: a single
isolated function with the default sizes (`min_module_size = 3`,
`max_module_size = 15`) lands in a synthetic `utilities_1` module of
size 1 < 3, violating "every ModuleGroup has at least min_module_size
functions".  Second: with two different functions sharing the name `a`
(addresses 0x1 and 0x4), the function at 0x1 appears in **no** module —
`func_map` keeps only the later duplicate — so the modules do not
partition the input. -/
theorem librarian_bounds_counterexample :
    clusterFunctions 3 15 [⟨"0x1", "f", "c", ["v"], [], [], 0, "int"⟩] =
      [⟨"utilities_1", [⟨"0x1", "f", "c", ["v"], [], [], 0, "int"⟩], []⟩] ∧
    (⟨"0x1", "a", "codeA", [], [], [some "b"], 0, "int"⟩ : FunctionUnit) ∈
      [⟨"0x1", "a", "codeA", [], [], [some "b"], 0, "int"⟩,
       ⟨"0x2", "b", "codeB", [], [], [some "c"], 0, "int"⟩,
       ⟨"0x3", "c", "codeC", [], [], [], 0, "int"⟩,
       ⟨"0x4", "a", "codeA2", [], [], [], 0, "int"⟩] ∧
    (⟨"0x1", "a", "codeA", [], [], [some "b"], 0, "int"⟩ : FunctionUnit) ∉
      ((clusterFunctions 3 15
        [⟨"0x1", "a", "codeA", [], [], [some "b"], 0, "int"⟩,
         ⟨"0x2", "b", "codeB", [], [], [some "c"], 0, "int"⟩,
         ⟨"0x3", "c", "codeC", [], [], [], 0, "int"⟩,
         ⟨"0x4", "a", "codeA2", [], [], [], 0, "int"⟩]).flatMap
        (fun m => m.functions)) := by
  refine ⟨by decide, by decide, by decide⟩

/-- Claim C4 as amended: (1) for inputs whose function names are
pairwise distinct (and `max_module_size ≥ 1`), the produced modules
partition the input — the concatenation of all modules' functions is a
permutation of it; (2) every clustered (non-utilities) module holds
between `min_module_size` and `int(1.5 · max_module_size)` functions
(the code truncates, which is within the claim's ceiling
`⌈1.5 · max⌉`); (3) every synthetic utilities module holds between 1 and
`max_module_size` functions — possibly fewer than `min_module_size`. -/
theorem librarian_partition_and_bounds :
    (∀ (functions : List FunctionUnit) (minSize maxSize : Nat),
       1 ≤ maxSize → (fnNames functions).Nodup →
       ((clusterFunctions minSize maxSize functions).flatMap
         (fun m => m.functions)).Perm functions) ∧
    (∀ (functions : List FunctionUnit) (minSize maxSize : Nat)
       (m : ModuleGroup), m ∈ clusteredModules minSize maxSize functions →
       minSize ≤ m.functions.length ∧ m.functions.length ≤ 3 * maxSize / 2) ∧
    (∀ (maxSize : Nat) (orphans : List FunctionUnit) (m : ModuleGroup),
       1 ≤ maxSize → m ∈ utilityModules maxSize orphans →
       1 ≤ m.functions.length ∧ m.functions.length ≤ maxSize) := by
  refine ⟨?_, ?_, ?_⟩
  · -- partition
    intro fns minS maxS hmax hnodup
    obtain ⟨clusters, hmods, hnodupC, hprops, hvis⟩ :=
      clusteredPass_spec fns minS (3 * maxS / 2) (buildCallGraph fns)
        (graphGet_buildCallGraph fns)
    have hmods' : clusteredModules minS maxS fns =
        clusters.map (mkClusterModule fns) := hmods
    have hsubAll : ∀ c ∈ clusters, ∀ x ∈ c, x ∈ fnNames fns :=
      fun c hc => (hprops c hc).2.2
    have hAname : ((clusteredModules minS maxS fns).flatMap
        (fun m => m.functions)).map (fun f => f.name) = clusters.flatten := by
      rw [hmods']
      exact clusteredMods_map_name fns clusters hsubAll
    have hGflat : (clusteredModules minS maxS fns).flatMap
        (fun m => m.functions.map (fun f => f.name)) = clusters.flatten := by
      rw [← hAname, List.map_flatMap]
    have hA_nodup : ((clusteredModules minS maxS fns).flatMap
        (fun m => m.functions)).Nodup := by
      refine List.Nodup.of_map (fun f => f.name) ?_
      rw [hAname]
      exact hnodupC
    have hmemA : ∀ f, f ∈ (clusteredModules minS maxS fns).flatMap
        (fun m => m.functions) ↔ f ∈ fns ∧ f.name ∈ clusters.flatten := by
      intro f
      constructor
      · intro hf
        rw [List.mem_flatMap] at hf
        obtain ⟨m, hm, hfm⟩ := hf
        rw [hmods', List.mem_map] at hm
        obtain ⟨c, hc, hceq⟩ := hm
        have hfm' : f ∈ clusterOf fns c := by
          rw [← hceq] at hfm
          exact hfm
        obtain ⟨h1, h2⟩ := mem_clusterOf_elim fns c f hfm'
        exact ⟨h1, List.mem_flatten.mpr ⟨c, hc, h2⟩⟩
      · rintro ⟨hf, hname⟩
        obtain ⟨c, hc, hnc⟩ := List.mem_flatten.mp hname
        rw [List.mem_flatMap]
        refine ⟨mkClusterModule fns c, ?_, ?_⟩
        · rw [hmods']
          exact List.mem_map.mpr ⟨c, hc, rfl⟩
        · exact mem_clusterOf_intro fns hnodup c f hf hnc (hsubAll c hc)
    have hfns_map_nodup : (fns.map (fun f => f.name)).Nodup := hnodup
    have hB_nodup : (fns.filter
        (fun f => decide (f.name ∈ clusters.flatten))).Nodup :=
      List.Nodup.filter _ (List.Nodup.of_map (fun f => f.name) hfns_map_nodup)
    have hAB : ((clusteredModules minS maxS fns).flatMap
        (fun m => m.functions)).Perm
        (fns.filter (fun f => decide (f.name ∈ clusters.flatten))) := by
      rw [List.perm_ext_iff_of_nodup hA_nodup hB_nodup]
      intro f
      rw [hmemA f, List.mem_filter]
      simp
    have hcf : clusterFunctions minS maxS fns =
        clusteredModules minS maxS fns ++
          utilityModules maxS (fns.filter (fun f => f.name ∉
            (clusteredModules minS maxS fns).flatMap
              (fun m => m.functions.map (fun g => g.name)))) := rfl
    rw [hcf, List.flatMap_append, utilityModules_flatMap,
      chunkList_flatten maxS hmax]
    have horph : fns.filter (fun f => f.name ∉
        (clusteredModules minS maxS fns).flatMap
          (fun m => m.functions.map (fun g => g.name))) =
        fns.filter (fun f => !decide (f.name ∈ clusters.flatten)) := by
      refine List.filter_congr ?_
      intro f _
      rw [hGflat, decide_not]
    rw [horph]
    exact (hAB.append_right _).trans (List.filter_append_perm _ fns)
  · -- clustered module sizes
    intro fns minS maxS m hm
    obtain ⟨clusters, hmods, hnodupC, hprops, hvis⟩ :=
      clusteredPass_spec fns minS (3 * maxS / 2) (buildCallGraph fns)
        (graphGet_buildCallGraph fns)
    have hmods' : clusteredModules minS maxS fns =
        clusters.map (mkClusterModule fns) := hmods
    rw [hmods', List.mem_map] at hm
    obtain ⟨c, hc, hceq⟩ := hm
    obtain ⟨h1, h2, h3⟩ := hprops c hc
    have hfun : m.functions = clusterOf fns c := by
      rw [← hceq]
      rfl
    rw [hfun, clusterOf_length fns c h3]
    exact ⟨h1, h2⟩
  · -- utilities module sizes
    intro maxS orphans m hmax hm
    obtain ⟨c, hc, hceq⟩ := utilityModules_mem maxS orphans m hm
    rw [hceq]
    exact chunkList_mem_le maxS hmax orphans c hc

/-- Witness for the amended C4 on a concrete two-function input with
distinct names. -/
theorem librarian_partition_witness :
    ((clusterFunctions 3 15
      [⟨"0x1", "f", "c", ["v"], [], [], 0, "int"⟩,
       ⟨"0x2", "g", "d", ["w"], [], [], 0, "int"⟩]).flatMap
      (fun m => m.functions)).Perm
      [⟨"0x1", "f", "c", ["v"], [], [], 0, "int"⟩,
       ⟨"0x2", "g", "d", ["w"], [], [], 0, "int"⟩] :=
  librarian_partition_and_bounds.1
    [⟨"0x1", "f", "c", ["v"], [], [], 0, "int"⟩,
     ⟨"0x2", "g", "d", ["w"], [], [], 0, "int"⟩] 3 15
    (by norm_num) (by decide)

end RevAI
